import Mathlib

/-!
Verification of the waycore-knowledge RAG index builder.

This file gives a shallow embedding of the text-processing, parsing,
indexing, manifest and verification logic of the repository's Python
scripts (scripts/build_index.py, scripts/generate_manifest.py,
scripts/verify_index.py and scripts/parsers/) and proves properties of
that embedding.  Python strings are modelled as `List Char`; Python
dicts carrying JSON records as association lists in insertion order.
-/

namespace Waycore

/-- Python strings are modelled as lists of characters. -/
abbrev Str := List Char

/-- Characters that Python's `str.strip()` and the regex class `\s`
treat as whitespace (the ASCII subset relevant to this code base). -/
def isPySpace (c : Char) : Bool :=
  (c = ' ') || (c = '\t') || (c = '\n') || (c = '\r') ||
    (c = Char.ofNat 11) || (c = Char.ofNat 12)

/-- Characters matched by the regex class `[ \t]` used by
`PDFParser._clean_text`. -/
def isSpTab (c : Char) : Bool :=
  (c = ' ') || (c = '\t')

/-- State machine for `re.sub(p+, ' ', text)`: every maximal run of
characters satisfying `p` is replaced by a single space.  The flag
records whether the previous character was part of a run. -/
def collapseRunsAux (p : Char → Bool) : Bool → Str → Str
  | _, [] => []
  | inRun, c :: rest =>
    if p c then
      (if inRun then [] else [' ']) ++ collapseRunsAux p true rest
    else
      c :: collapseRunsAux p false rest

/-- Replace every maximal run of characters satisfying `p` by one space,
as `re.sub(r'\s+', ' ', text)` and `re.sub(r'[ \t]+', ' ', text)` do. -/
def collapseRuns (p : Char → Bool) (cs : Str) : Str :=
  collapseRunsAux p false cs

/-- State machine for `re.sub(r'\r\n?', '\n', text)`: every `\r` becomes
`\n`, and a `\n` directly following a `\r` is consumed with it.  The flag
records whether the previous character was a `\r`. -/
def normCrAux : Bool → Str → Str
  | _, [] => []
  | afterCr, c :: rest =>
    if c = '\r' then '\n' :: normCrAux true rest
    else if afterCr && (c = '\n') then normCrAux false rest
    else c :: normCrAux false rest

/-- Normalise line endings as `re.sub(r'\r\n?', '\n', text)` does. -/
def normCr (cs : Str) : Str :=
  normCrAux false cs

/-- State machine for `re.sub(r'\n{3,}', '\n\n', text)`: a maximal run of
three or more newlines becomes exactly two; shorter runs are kept.  The
counter is the number of pending newlines already consumed. -/
def collapse3nlAux : Nat → Str → Str
  | n, [] => List.replicate (if 3 ≤ n then 2 else n) '\n'
  | n, c :: rest =>
    if c = '\n' then collapse3nlAux (n + 1) rest
    else List.replicate (if 3 ≤ n then 2 else n) '\n' ++ c :: collapse3nlAux 0 rest

/-- Collapse runs of three or more newlines to exactly two, as
`re.sub(r'\n{3,}', '\n\n', text)` does. -/
def collapse3nl (cs : Str) : Str :=
  collapse3nlAux 0 cs

/-- Drop trailing characters satisfying `p`. -/
def dropTrailing (p : Char → Bool) (cs : Str) : Str :=
  (cs.reverse.dropWhile p).reverse

/-- Python's `str.strip()`: drop leading and trailing whitespace. -/
def pyStrip (cs : Str) : Str :=
  dropTrailing isPySpace (cs.dropWhile isPySpace)

/-- The global `clean_text` of scripts/build_index.py: collapse every
whitespace run (`\s+`) to a single space, collapse runs of three or more
newlines to two (a no-op after the first step), then strip. -/
def clean_text (text : Str) : Str :=
  pyStrip (collapse3nl (collapseRuns isPySpace text))

namespace PDFParser

/-- `PDFParser._clean_text` of scripts/parsers/pdf_parser.py: collapse
`[ \t]+` runs to one space, normalise `\r\n?` to `\n`, collapse runs of
three or more newlines to two, then strip. -/
def clean_text (text : Str) : Str :=
  pyStrip (collapse3nl (normCr (collapseRuns isSpTab text)))

end PDFParser

/-- State machine for `re.split(r'\n\n+', text)`: a maximal run of two or
more newlines separates paragraphs; a single newline stays inside its
paragraph.  `acc` is the current paragraph reversed, `p` counts pending
newlines not yet assigned to either side. -/
def splitParasAux : Str → Nat → Str → List Str
  | acc, p, [] =>
    if 2 ≤ p then [acc.reverse, []]
    else [(List.replicate p '\n' ++ acc).reverse]
  | acc, p, c :: rest =>
    if c = '\n' then splitParasAux acc (p + 1) rest
    else
      if 2 ≤ p then acc.reverse :: splitParasAux [c] 0 rest
      else splitParasAux (c :: (List.replicate p '\n' ++ acc)) 0 rest

/-- Split a text on blank-line paragraph boundaries, as
`re.split(r'\n\n+', text)` does (leading/trailing separators produce
empty strings, exactly as in Python). -/
def splitParas (cs : Str) : List Str :=
  splitParasAux [] 0 cs

/-- Python `s[-n:]` for `n > 0`: the last `n` characters (the whole
string when it is shorter than `n`). -/
def lastN (n : Nat) (cs : Str) : Str :=
  cs.drop (cs.length - n)

/-- The constant `MIN_CHUNK_SIZE` of scripts/build_index.py. -/
def MIN_CHUNK_SIZE : Nat := 100

/-- One iteration of the paragraph loop of `chunk_text` in
scripts/build_index.py: the state is the current buffer and the chunks
yielded so far.  A chunk is emitted only when appending would exceed the
target size and the buffer already has at least `MIN_CHUNK_SIZE`
characters; otherwise the paragraph is appended (joined by a blank
line). -/
def buildStep (chunkSize overlap : Nat) (st : Str × List Str) (para0 : Str) :
    Str × List Str :=
  let para := pyStrip para0
  if para = [] then st
  else
    let buf := st.1
    let out := st.2
    if chunkSize < buf.length + para.length + 2 ∧ MIN_CHUNK_SIZE ≤ buf.length then
      (if 0 < overlap then lastN overlap buf ++ ' ' :: para else para, out ++ [buf])
    else
      (if buf = [] then para else buf ++ '\n' :: '\n' :: para, out)

/-- The paragraph loop of `chunk_text` over a paragraph list, followed by
the final emission of a non-empty buffer of at least `MIN_CHUNK_SIZE`
characters. -/
def buildChunkList (chunkSize overlap : Nat) (paras : List Str) : List Str :=
  let st := paras.foldl (buildStep chunkSize overlap) ([], [])
  st.2 ++ (if st.1 ≠ [] ∧ MIN_CHUNK_SIZE ≤ st.1.length then [st.1] else [])

/-- `chunk_text` of scripts/build_index.py: clean the text, return
nothing when the cleaned text is below `MIN_CHUNK_SIZE`, otherwise chunk
the blank-line paragraphs of the cleaned text. -/
def chunk_text (chunkSize overlap : Nat) (text : Str) : List Str :=
  let t := clean_text text
  if t.length < MIN_CHUNK_SIZE then []
  else buildChunkList chunkSize overlap (splitParas t)

namespace PDFParser

/-- One iteration of the paragraph loop of `PDFParser._chunk_text`:
unlike the builder's `chunk_text`, when appending would exceed the
target size the buffer is always restarted (seeded with the last
`overlap` characters), and it is emitted only if it already reached
`minChunkSize`. -/
def step (chunkSize overlap minChunkSize : Nat) (st : Str × List Str)
    (para0 : Str) : Str × List Str :=
  let para := pyStrip para0
  if para = [] then st
  else
    let buf := st.1
    let out := st.2
    if chunkSize < buf.length + para.length + 2 then
      (if 0 < overlap then lastN overlap buf ++ ' ' :: para else para,
        if minChunkSize ≤ buf.length then out ++ [buf] else out)
    else
      (if buf = [] then para else buf ++ '\n' :: '\n' :: para, out)

/-- The paragraph loop of `PDFParser._chunk_text` over a paragraph list,
with the final emission of a non-empty buffer of at least
`minChunkSize` characters. -/
def chunkList (chunkSize overlap minChunkSize : Nat) (paras : List Str) :
    List Str :=
  let st := paras.foldl (step chunkSize overlap minChunkSize) ([], [])
  st.2 ++ (if st.1 ≠ [] ∧ minChunkSize ≤ st.1.length then [st.1] else [])

/-- `PDFParser._chunk_text` of scripts/parsers/pdf_parser.py. -/
def chunk_text (chunkSize overlap minChunkSize : Nat) (text : Str) :
    List Str :=
  if text.length < minChunkSize then []
  else chunkList chunkSize overlap minChunkSize (splitParas text)

end PDFParser

/-- JSON values as they occur in the flat records this code base feeds
to its JSON/plant parsers: strings, numbers, booleans and arrays of
strings.  (Nested objects are never inspected by the parsers' field
loops.) -/
inductive JValue where
  | str (s : Str)
  | num (n : Int)
  | bl (b : Bool)
  | listStr (xs : List Str)
deriving DecidableEq, Repr

/-- A JSON record: a Python dict in insertion order with unique keys. -/
abbrev JRecord := List (Str × JValue)

/-- Python truthiness of a JSON value (`if value:`). -/
def jTruthy : JValue → Bool
  | .str s => s ≠ []
  | .num n => n ≠ 0
  | .bl b => b
  | .listStr xs => xs ≠ []

/-- Dict lookup `item.get(key)`. -/
def jGet (item : JRecord) (key : Str) : Option JValue :=
  (item.find? (fun kv => kv.1 = key)).map (fun kv => kv.2)

/-- A Python `or`-chain `item.get(k1) or item.get(k2) or ...`: the first
field that is present and truthy (a trailing falsy value and a missing
key both behave as "no result" for the truthiness tests that follow). -/
def firstTruthy (item : JRecord) : List Str → Option JValue
  | [] => none
  | k :: ks =>
    match jGet item k with
    | some v => if jTruthy v then some v else firstTruthy item ks
    | none => firstTruthy item ks

/-- ASCII `str.lower()`. -/
def pyLower (cs : Str) : Str :=
  cs.map Char.toLower

/-- Python's `str.title()` on ASCII text: a letter is uppercased when
the previous character is not a letter, lowercased otherwise. -/
def pyTitleAux : Bool → Str → Str
  | _, [] => []
  | prevAlpha, c :: rest =>
    if c.isAlpha then
      (if prevAlpha then c.toLower else c.toUpper) :: pyTitleAux true rest
    else c :: pyTitleAux false rest

/-- Python's `str.title()` on ASCII text. -/
def pyTitle (cs : Str) : Str :=
  pyTitleAux false cs

/-- `key.replace('_', ' ')`. -/
def underscoreToSpace (cs : Str) : Str :=
  cs.map (fun c => if c = '_' then ' ' else c)

/-- Join a list of strings with a separator, as `sep.join(parts)`. -/
def joinBy (sep : Str) : List Str → Str
  | [] => []
  | [x] => x
  | x :: y :: rest => x ++ sep ++ joinBy sep (y :: rest)

/-- The opening brace character (written numerically). -/
def lbrace : Char := Char.ofNat 123

/-- The closing brace character (written numerically). -/
def rbrace : Char := Char.ofNat 125

/-- The double-quote character. -/
def dquote : Char := Char.ofNat 34

/-- The single-quote character. -/
def squote : Char := Char.ofNat 39

/-- JSON string escaping for the characters that can occur in this
development's record domain (quote, backslash, tab, newline, carriage
return; other characters are emitted verbatim). -/
def jsonEscape (cs : Str) : Str :=
  cs.flatMap (fun c =>
    if c = dquote then ['\\', dquote]
    else if c = '\\' then ['\\', '\\']
    else if c = '\n' then ['\\', 'n']
    else if c = '\t' then ['\\', 't']
    else if c = '\r' then ['\\', 'r']
    else [c])

/-- Decimal representation of an integer, as Python prints it. -/
def intRepr (n : Int) : Str :=
  (toString n).toList

/-- `json.dumps(value, indent=2)` for one value nested inside a dict
entry (so a list's closing bracket sits at indentation `ind`). -/
def dumpVal (ind : Nat) : JValue → Str
  | .str s => dquote :: jsonEscape s ++ [dquote]
  | .num n => intRepr n
  | .bl b => if b then ("true").toList else ("false").toList
  | .listStr [] => ['[', ']']
  | .listStr (x :: xs) =>
    '[' :: '\n' ::
      joinBy (",\n").toList
        ((x :: xs).map (fun s =>
          List.replicate (ind + 2) ' ' ++ dquote :: jsonEscape s ++ [dquote])) ++
      '\n' :: List.replicate ind ' ' ++ [']']

/-- `json.dumps(item, indent=2)` for a flat record. -/
def pyDumps (item : JRecord) : Str :=
  match item with
  | [] => [lbrace, rbrace]
  | _ =>
    lbrace :: '\n' ::
      joinBy (",\n").toList
        (item.map (fun kv =>
          ' ' :: ' ' :: dquote :: jsonEscape kv.1 ++ dquote :: ':' :: ' ' ::
            dumpVal 2 kv.2)) ++
      '\n' :: [rbrace]

/-- Python `str(value)` for the record domain. -/
def pyStr : JValue → Str
  | .str s => s
  | .num n => intRepr n
  | .bl b => if b then ("True").toList else ("False").toList
  | .listStr xs =>
    '[' :: joinBy (", ").toList (xs.map (fun s => squote :: s ++ [squote])) ++ [']']

/-- Python `int(value)` on the record domain, as `Option`: exact for
numbers and booleans; for strings, the canonical decimal forms
(optional surrounding whitespace, optional sign, digits); `TypeError`
on lists. -/
def toIntOpt : JValue → Option Int
  | .num n => some n
  | .bl b => some (if b then 1 else 0)
  | .listStr _ => none
  | .str s =>
    let t := pyStrip s
    let core := if t.head? = some '-' ∨ t.head? = some '+' then t.tail else t
    if core ≠ [] ∧ core.all Char.isDigit then
      let mag : Int := core.foldl (fun acc c => acc * 10 + (c.toNat - 48)) 0
      some (if t.head? = some '-' then -mag else mag)
    else none

/-- The `Entry` record of scripts/build_index.py, without the
nondeterministic attributes (`id` is a fresh UUID fragment and
`created_at` a wall-clock timestamp; neither takes part in any claim,
and neither is the cross-index key). -/
structure Entry where
  title : Str
  content : Str
  category : Str
  subcategory : Option Str := none
  safety_level : Str := ("safe").toList
  safety_notes : Option Str := none
  source_file : Option Str := none
  source_page : Option Int := none
  source_url : Option Str := none
  license : Option Str := none
  tags : List Str := []
deriving DecidableEq, Repr

/-- The `CATEGORY_SAFETY` table of scripts/build_index.py. -/
def CATEGORY_SAFETY : List (Str × Str) :=
  [(("survival").toList, ("caution").toList),
   (("navigation").toList, ("safe").toList),
   (("first_aid").toList, ("warning").toList),
   (("plants").toList, ("danger").toList),
   (("knots").toList, ("safe").toList),
   (("weather").toList, ("safe").toList),
   (("comms").toList, ("safe").toList),
   (("equipment").toList, ("caution").toList)]

/-- `CATEGORY_SAFETY.get(category, "safe")`. -/
def categorySafety (category : Str) : Str :=
  ((CATEGORY_SAFETY.find? (fun kv => kv.1 = category)).map
    (fun kv => kv.2)).getD (("safe").toList)

/-- The plant warning string attached by `parse_json_item` in
scripts/build_index.py. -/
def BUILD_PLANT_WARNING : Str :=
  ("WARNING: Never consume plants based solely on this information.").toList

/-- The `content_parts` list built by the field loop of
`parse_json_item`: the string fields longer than 10 characters whose
lowercased key is not `name`/`title`/`id`, each rendered as
`key: value`. -/
def buildContentParts (item : JRecord) : List Str :=
  item.filterMap (fun kv =>
    if pyLower kv.1 = ("name").toList ∨ pyLower kv.1 = ("title").toList ∨
        pyLower kv.1 = ("id").toList then none
    else
      match kv.2 with
      | .str s => if 10 < s.length then some (kv.1 ++ ':' :: ' ' :: s) else none
      | _ => none)

/-- The `content` variable of `parse_json_item`: the labelled string
fields joined by newlines, or the indented JSON dump of the whole item
when no field qualifies. -/
def buildItemContent (item : JRecord) : Str :=
  if buildContentParts item ≠ [] then joinBy ['\n'] (buildContentParts item)
  else pyDumps item

/-- `parse_json_item` of scripts/build_index.py: title from the first
truthy of `name`/`title`/`common_name` (else "Unknown"); records whose
assembled content is below `MIN_CHUNK_SIZE` are dropped; plants are
forced to safety level "danger" with a fixed warning. -/
def parse_json_item (item : JRecord) (category : Str) (sourceFile : Str) :
    List Entry :=
  let title := (firstTruthy item
    [("name").toList, ("title").toList, ("common_name").toList]).getD
    (.str ("Unknown").toList)
  let content := buildItemContent item
  if content.length < MIN_CHUNK_SIZE then []
  else
    let safetyLevel :=
      if category = ("plants").toList then ("danger").toList
      else categorySafety category
    let safetyNotes :=
      if category = ("plants").toList then some BUILD_PLANT_WARNING else none
    [{ title := pyStr title
       content := content
       category := category
       subcategory := none
       safety_level := safetyLevel
       safety_notes := safetyNotes
       source_file := some sourceFile
       license := some ("public_domain").toList
       tags := [category] }]

namespace JSONParser

/-- The `DataEntry` record of scripts/parsers/json_parser.py. -/
structure DataEntry where
  title : Str
  content : Str
  metadata : JRecord
  source_file : Str
deriving DecidableEq, Repr

/-- The construction parameters of `JSONParser`. -/
structure Config where
  title_fields : List Str
  content_fields : List Str
  min_content_length : Nat
deriving Repr

/-- The default `JSONParser` configuration. -/
def defaultConfig : Config :=
  { title_fields := [("name").toList, ("title").toList, ("common_name").toList,
      ("label").toList, ("heading").toList]
    content_fields := [("description").toList, ("content").toList,
      ("text").toList, ("body").toList, ("summary").toList, ("notes").toList]
    min_content_length := 50 }

/-- The labelled content block `**Key Title**: value` used by
`JSONParser._parse_item`. -/
def contentBlock (key : Str) (value : Str) : Str :=
  '*' :: '*' :: pyTitle (underscoreToSpace key) ++ '*' :: '*' :: ':' :: ' ' :: value

/-- The `content_parts` of `JSONParser._parse_item`: strings longer
than 20 characters and lists of strings become labelled content
blocks. -/
def contentParts (cfg : Config) (item : JRecord) : List Str :=
  item.filterMap (fun kv =>
    if kv.1 ∈ cfg.title_fields then none
    else
      match kv.2 with
      | .str s => if 20 < s.length then some (contentBlock kv.1 s) else none
      | .listStr xs => some (contentBlock kv.1 (joinBy (", ").toList xs))
      | _ => none)

/-- The `content` variable of `JSONParser._parse_item`: the content
blocks joined by blank lines. -/
def itemContent (cfg : Config) (item : JRecord) : Str :=
  joinBy ['\n', '\n'] (contentParts cfg item)

/-- `JSONParser._parse_item`: title from the first present-and-truthy
title field (else "Untitled Entry"); short strings and scalars go to
metadata; the item is dropped when the joined content is below
`min_content_length`. -/
def parse_item (cfg : Config) (item : JRecord) (sourceFile : Str) :
    Option DataEntry :=
  let title := (firstTruthy item cfg.title_fields).map pyStr
  let metadata := item.filterMap (fun kv =>
    if kv.1 ∈ cfg.title_fields then none
    else
      match kv.2 with
      | .str s => if 20 < s.length then none else some kv
      | .num _ => some kv
      | .bl _ => some kv
      | .listStr _ => none)
  let content := itemContent cfg item
  if content.length < cfg.min_content_length then none
  else
    some { title := title.getD ("Untitled Entry").toList
           content := content
           metadata := metadata
           source_file := sourceFile }

end JSONParser

namespace PlantParser

/-- The `SAFETY_LEVELS` table of scripts/parsers/plant_parser.py, keyed
by edibility rating. -/
def SAFETY_LEVELS : List (Int × Str) :=
  [(5, ("caution").toList), (4, ("caution").toList), (3, ("warning").toList),
   (2, ("danger").toList), (1, ("lethal").toList), (0, ("danger").toList)]

/-- `SAFETY_LEVELS.get(edibility_rating, "danger")`. -/
def safetyForRating (r : Int) : Str :=
  ((SAFETY_LEVELS.find? (fun kv => kv.1 = r)).map (fun kv => kv.2)).getD
    (("danger").toList)

/-- The fixed `PLANT_SAFETY_WARNING` disclaimer of
scripts/parsers/plant_parser.py (a triple-quoted string that begins and
ends with a newline). -/
def PLANT_SAFETY_WARNING : Str :=
  ("\n⚠️ SAFETY WARNING: Never consume any plant based solely on this information.\nAlways verify identification with multiple authoritative sources.\nMany plants have toxic look-alikes. When in doubt, do NOT eat it.\nConsult local experts and field guides specific to your region.\n").toList

/-- The `PlantEntry` record of scripts/parsers/plant_parser.py.  The
`scientific_name`, `family`, `edibility`, `medicinal_uses` and
`habitat` fields are modelled as the first present-and-truthy value of
their candidate chains (`None` when every candidate is falsy, which is
how the falsy result is treated everywhere it is read). -/
structure PlantEntry where
  common_name : Str
  scientific_name : Option JValue
  family : Option JValue
  description : Str
  edibility : Option JValue
  edibility_rating : Option Int
  medicinal_uses : Option JValue
  habitat : Option JValue
  safety_level : Str
  safety_notes : Str
  source_file : Str
  metadata : JRecord
deriving DecidableEq, Repr

/-- The minimum content length of `PlantParser` (`__init__`). -/
def min_content_length : Nat := 100

/-- The description fields scanned by `_parse_plant`, in order. -/
def descriptionFields : List Str :=
  [("description").toList, ("physical_characteristics").toList,
   ("growth_habit").toList, ("leaves").toList, ("flowers").toList,
   ("fruit").toList]

/-- The lowercased field names excluded from `PlantEntry.metadata`. -/
def skipFields : List Str :=
  [("common_name").toList, ("scientific_name").toList, ("family").toList,
   ("description").toList, ("edibility").toList,
   ("edibility_rating").toList, ("medicinal_uses").toList,
   ("habitat").toList]

/-- `PlantParser._parse_plant` of scripts/parsers/plant_parser.py. -/
def parse_plant (item : JRecord) (sourceFile : Str) : Option PlantEntry :=
  let commonName := (firstTruthy item
    [("common_name").toList, ("CommonName").toList, ("name").toList,
     ("vernacular_name").toList]).getD (.str ("Unknown Plant").toList)
  let scientificName := firstTruthy item
    [("scientific_name").toList, ("ScientificName").toList,
     ("latin_name").toList, ("binomial").toList]
  let family := firstTruthy item
    [("family").toList, ("Family").toList, ("plant_family").toList]
  let parts0 :=
    (match scientificName with
     | some v => [("**Scientific Name**: ").toList ++ pyStr v]
     | none => []) ++
    (match family with
     | some v => [("**Family**: ").toList ++ pyStr v]
     | none => [])
  let parts1 := parts0 ++ descriptionFields.filterMap (fun f =>
    match jGet item f with
    | some v =>
      if jTruthy v then some (JSONParser.contentBlock f (pyStr v)) else none
    | none => none)
  let edibility := firstTruthy item
    [("edibility").toList, ("edible_parts").toList, ("uses_edible").toList]
  let edibilityRating :=
    match jGet item ("edibility_rating").toList with
    | some v => toIntOpt v
    | none => none
  let parts2 := parts1 ++
    (match edibility with
     | some v => [("**Edibility**: ").toList ++ pyStr v]
     | none => [])
  let medicinalUses := firstTruthy item
    [("medicinal_uses").toList, ("medicinal").toList,
     ("uses_medicinal").toList]
  let parts3 := parts2 ++
    (match medicinalUses with
     | some v => [("**Medicinal Uses**: ").toList ++ pyStr v]
     | none => [])
  let habitat := firstTruthy item
    [("habitat").toList, ("native_range").toList, ("distribution").toList]
  let parts4 := parts3 ++
    (match habitat with
     | some v => [("**Habitat**: ").toList ++ pyStr v]
     | none => [])
  let safetyLevel :=
    match edibilityRating with
    | some r => safetyForRating r
    | none => ("danger").toList
  let description := joinBy ['\n', '\n'] parts4
  if description.length < min_content_length then none
  else
    some { common_name := pyStr commonName
           scientific_name := scientificName
           family := family
           description := description
           edibility := edibility
           edibility_rating := edibilityRating
           medicinal_uses := medicinalUses
           habitat := habitat
           safety_level := safetyLevel
           safety_notes := PLANT_SAFETY_WARNING
           source_file := sourceFile
           metadata := item.filter (fun kv =>
             decide (pyLower kv.1 ∉ skipFields) &&
               (match kv.2 with
                | .listStr _ => false
                | _ => true)) }

end PlantParser

/-- The relational store of one build: the `entries` table as a list in
insertion order.  `build_index` deletes any pre-existing database file
before creating the schema, so the table is always fresh; SQLite then
assigns the rowid 1 to the first inserted row and `max(rowid) + 1` to
each subsequent one, which for pure insertion is `position + 1`. -/
abbrev EntriesTable := List Entry

/-- `insert_entry` of scripts/build_index.py: insert one entry and
return `cursor.lastrowid`, the rowid SQLite assigned to it. -/
def insert_entry (tbl : EntriesTable) (e : Entry) : EntriesTable × Nat :=
  (tbl ++ [e], tbl.length + 1)

/-- Phase 1 of the build: insert every parsed entry in order, collecting
the assigned rowids. -/
def phase1 (entries : List Entry) : EntriesTable × List Nat :=
  entries.foldl
    (fun acc e =>
      let ins := insert_entry acc.1 e
      (ins.1, acc.2 ++ [ins.2]))
    ([], [])

/-- `SELECT rowid, content FROM entries ORDER BY rowid`: rowids are
`1..N` in insertion order. -/
def selectRows (tbl : EntriesTable) : List (Nat × Str) :=
  tbl.enum.map (fun p => (p.1 + 1, p.2.content))

/-- The body of the Python slice loop `for i in range(0, len(rows),
batch_size)` with a positive step: the successive slices
`rows[i:i+batch_size]`.  The fuel argument (instantiated with the list
length) only forces structural termination; with a positive batch size
each iteration consumes at least one element, so the fuel never runs
out. -/
def toBatchesGo (bs : Nat) : Nat → List α → List (List α)
  | _, [] => []
  | 0, _ :: _ => []
  | fuel + 1, x :: xs =>
    ((x :: xs).take bs) :: toBatchesGo bs fuel ((x :: xs).drop bs)

/-- Slice a list into consecutive batches of `bs` elements (the last
batch may be shorter). -/
def toBatches (bs : Nat) (l : List α) : List (List α) :=
  if bs = 0 then [] else toBatchesGo bs l.length l

/-- An Hnswlib index over an abstract embedding type: `add_items(data,
ids)` stores each id (the external label) with its vector, in order. -/
structure HnswIndex (α : Type) where
  items : List (Nat × α)
deriving DecidableEq, Repr

/-- The external labels of a vector index, in insertion order. -/
def HnswIndex.labels (idx : HnswIndex α) : List Nat :=
  idx.items.map Prod.fst

/-- `index.get_current_count()`. -/
def HnswIndex.count (idx : HnswIndex α) : Nat :=
  idx.items.length

/-- `build_vector_index` of scripts/build_index.py: read back all rows
ordered by rowid, abort with `ValueError("No entries in database")` if
there are none, encode contents in batches of 100 (the model's
`encode` is an abstract per-string embedding function applied in input
order), and add all embeddings under their rowid labels.  An `.ok`
result is the index that `save_index` then persists; `.error` means the
exception propagated before any index was built. -/
def build_vector_index (embed : Str → α) (tbl : EntriesTable) :
    Except Str (HnswIndex α) :=
  let rows := selectRows tbl
  if rows = [] then .error ("No entries in database").toList
  else
    let batches := toBatches 100 rows
    let allIds := (batches.map (fun b => b.map (fun r => r.1))).flatten
    let allEmbeddings :=
      (batches.map (fun b => (b.map (fun r => r.2)).map embed)).flatten
    .ok { items := allIds.zip allEmbeddings }

/-- The artifacts of one build that the vector phase can touch: the
phase-1 table (which `build_vector_index` only reads) and the vector
index file (written only by `save_index`). -/
structure BuildArtifacts (α : Type) where
  tbl : EntriesTable
  savedIndex : Option (HnswIndex α)

/-- Run the vector phase over the phase-1 artifacts: on success the
index is persisted; on failure the exception is returned and nothing is
written. -/
def runVectorPhase (embed : Str → α) (st : BuildArtifacts α) :
    BuildArtifacts α × Option Str :=
  match build_vector_index embed st.tbl with
  | .ok idx => ({ st with savedIndex := some idx }, none)
  | .error e => (st, some e)

/-- Values of the generated manifest.json document. -/
inductive MVal where
  | s (v : Str)
  | n (v : Nat)
  | kv (v : List (Str × MVal))
deriving Repr

/-- Lookup in a JSON object modelled as a key/value list. -/
def mGet (obj : List (Str × MVal)) (key : Str) : Option MVal :=
  (obj.find? (fun p => p.1 = key)).map (fun p => p.2)

/-- `SELECT COUNT(*) FROM entries`. -/
def countEntries (tbl : EntriesTable) : Nat :=
  tbl.length

/-- Byte-order comparison of strings, as SQLite's default BINARY
collation orders `ORDER BY category`. -/
def strLe : Str → Str → Bool
  | [], _ => true
  | _ :: _, [] => false
  | a :: as, b :: bs =>
    if a.toNat < b.toNat then true
    else if b.toNat < a.toNat then false
    else strLe as bs

/-- `SELECT category, COUNT(*) FROM entries GROUP BY category ORDER BY
category`: the distinct categories in ascending order, each with its
row count. -/
def get_category_counts (tbl : EntriesTable) : List (Str × MVal) :=
  ((tbl.map (fun e => e.category)).dedup.mergeSort strLe).map
    (fun c => (c, MVal.n (tbl.countP (fun e => decide (e.category = c)))))

/-- The manifest record built by `generate_manifest` of
scripts/generate_manifest.py.  `sha256` abstracts `hashlib.sha256` as a
whole-file digest function over the artifact bytes; `buildTimestamp` is
the wall-clock timestamp. -/
def generate_manifest (sha256 : List Nat → Str) (version sourceHash model
    buildTimestamp : Str) (tbl : EntriesTable) (dbBytes vecBytes : List Nat) :
    List (Str × MVal) :=
  [(("version").toList, .s version),
   (("build_timestamp").toList, .s buildTimestamp),
   (("source_hash").toList, .s sourceHash),
   (("embedding_model").toList, .s model),
   (("embedding_dimensions").toList, .n 384),
   (("total_entries").toList, .n (countEntries tbl)),
   (("categories").toList, .kv (get_category_counts tbl)),
   (("files").toList, .kv
     [(("knowledge.db").toList, .kv
       [(("size_bytes").toList, .n dbBytes.length),
        (("sha256").toList, .s (sha256 dbBytes))]),
      (("vectors.idx").toList, .kv
       [(("size_bytes").toList, .n vecBytes.length),
        (("sha256").toList, .s (sha256 vecBytes))])]),
   (("schema_version").toList, .s ("1.0").toList),
   (("hnswlib_space").toList, .s ("cosine").toList)]

/-- A generated SQLite file as the verifier sees it: integrity status,
presence of the two tables, and the stored rows keyed by rowid. -/
structure DBFile where
  integrityOk : Bool
  hasEntriesTable : Bool
  hasFtsTable : Bool
  rows : List (Nat × Entry)
deriving Repr

/-- `verify_database` of scripts/verify_index.py: integrity check, both
tables present, and a non-zero entry count. -/
def verify_database (db : DBFile) : Bool :=
  db.integrityOk && db.hasEntriesTable && db.hasFtsTable &&
    (db.rows.length != 0)

/-- `verify_vector_index` of scripts/verify_index.py: the index loads
(`none` models a load failure) and reports a non-zero item count. -/
def verify_vector_index (idx : Option (HnswIndex α)) : Bool :=
  match idx with
  | none => false
  | some i => i.count != 0

/-- The `required` field list of `verify_manifest`. -/
def requiredManifestFields : List Str :=
  [("version").toList, ("total_entries").toList, ("categories").toList,
   ("files").toList]

/-- `verify_manifest` of scripts/verify_index.py: the manifest exists,
has the four required fields, and its `total_entries` equals a fresh
`SELECT COUNT(*)` from the database.  (The recorded file hashes are
never recomputed or compared.) -/
def verify_manifest (man : Option (List (Str × MVal))) (db : DBFile) :
    Bool :=
  match man with
  | none => false
  | some m =>
    ((requiredManifestFields.all (fun f => (mGet m f).isSome)) &&
      match mGet m ("total_entries").toList with
      | some (.n k) => k == db.rows.length
      | _ => false)

/-- The `TEST_QUERIES` battery of scripts/verify_index.py. -/
def TEST_QUERIES : List (Str × Str) :=
  [(("how to start a fire without matches").toList, ("survival").toList),
   (("reading a topographic map").toList, ("navigation").toList),
   (("treating a bleeding wound").toList, ("first_aid").toList),
   (("tying a bowline knot").toList, ("knots").toList),
   (("identifying cloud types").toList, ("weather").toList)]

/-- One reported line of `verify_search`: a ✅ pass, a ⚠️ category
mismatch (reported, not failing), a ❌ empty result, or a ❌ label with
no matching row. -/
inductive QueryOutcome where
  | pass (query actual : Str)
  | warn (query actual expected : Str)
  | noResults (query : Str)
  | missingRow (query : Str) (label : Nat)
deriving DecidableEq, Repr

/-- `SELECT category FROM entries WHERE rowid = ?`. -/
def lookupCategory (db : DBFile) (label : Nat) : Option Str :=
  (db.rows.find? (fun p => p.1 = label)).map (fun p => p.2.category)

/-- One iteration of the query loop of `verify_search`: empty results
and labels without a database row clear `all_passed`; a category
mismatch only appends a ⚠️ warning line. -/
def searchStep (db : DBFile) (search : Str → List Nat)
    (acc : Bool × List QueryOutcome) (q : Str × Str) :
    Bool × List QueryOutcome :=
  match search q.1 with
  | [] => (false, acc.2 ++ [.noResults q.1])
  | l :: _ =>
    match lookupCategory db l with
    | none => (false, acc.2 ++ [.missingRow q.1 l])
    | some cat =>
      if cat = q.2 then (acc.1, acc.2 ++ [.pass q.1 cat])
      else (acc.1, acc.2 ++ [.warn q.1 cat q.2])

/-- `verify_search` of scripts/verify_index.py over an abstract
nearest-neighbour function (the embedding model plus `knn_query`,
returning the ranked labels for a query). -/
def verify_search (db : DBFile) (search : Str → List Nat) :
    Bool × List QueryOutcome :=
  TEST_QUERIES.foldl (searchStep db search) (true, [])

/-- `verify_index` of scripts/verify_index.py: the conjunction of the
database, vector-index, manifest and search checks. -/
def verify_index (db : DBFile) (idx : Option (HnswIndex α))
    (man : Option (List (Str × MVal))) (search : Str → List Nat) : Bool :=
  verify_database db && verify_vector_index idx && verify_manifest man db &&
    (verify_search db search).1

/-- The process exit code of the verify command: 0 on a full pass,
1 otherwise. -/
def verifyExitCode (db : DBFile) (idx : Option (HnswIndex α))
    (man : Option (List (Str × MVal))) (search : Str → List Nat) : Nat :=
  if verify_index db idx man search then 0 else 1

/-- Every character of `cs` satisfying `p` is a plain space. -/
def wsOnlySpace (p : Char → Bool) (cs : Str) : Bool :=
  cs.all (fun c => !p c || (c = ' '))

/-- No character of `cs` equals `c0`. -/
def noChar (c0 : Char) (cs : Str) : Bool :=
  cs.all (fun c => c != c0)

/-- No two adjacent characters of the list both satisfy `p`; the flag
says whether the (virtual) preceding character satisfied `p`. -/
def noAdjAux (p : Char → Bool) : Bool → Str → Bool
  | _, [] => true
  | prev, c :: rest => (!(prev && p c)) && noAdjAux p (p c) rest

/-- No two adjacent characters of `cs` both satisfy `p`. -/
def noAdj (p : Char → Bool) (cs : Str) : Bool :=
  noAdjAux p false cs

/-- No run of three or more newlines; the counter is the length of the
newline run immediately before the list. -/
def no3Aux : Nat → Str → Bool
  | _, [] => true
  | n, c :: rest =>
    if c = '\n' then (n + 1 < 3) && no3Aux (n + 1) rest else no3Aux 0 rest

/-- `cs` contains no run of three or more consecutive newlines. -/
def no3 (cs : Str) : Bool :=
  no3Aux 0 cs

/-- The first character, if any, does not satisfy `p`. -/
def headOk (p : Char → Bool) (cs : Str) : Bool :=
  match cs with
  | [] => true
  | c :: _ => !p c

/-- Neither end of `cs` carries a character satisfying `p`. -/
def endsOk (p : Char → Bool) (cs : Str) : Bool :=
  headOk p cs && headOk p cs.reverse

/-- A minimal concrete entry used by the concrete instantiations. -/
def exEntry : Entry :=
  { title := ("Fire").toList
    content := ("how to start a fire").toList
    category := ("survival").toList }

/-- A second concrete entry used by the concrete instantiations. -/
def exEntry2 : Entry :=
  { title := ("Maps").toList
    content := ("reading a topographic map").toList
    category := ("navigation").toList }

/-- A concrete plant record with a lethal edibility rating and a long
description, used by the concrete instantiations. -/
def exPlantRecord : JRecord :=
  [(("common_name").toList, .str ("Deadly Nightshade").toList),
   (("scientific_name").toList, .str ("Atropa belladonna").toList),
   (("description").toList,
     .str ("An extremely toxic plant. All parts are poisonous and must never be eaten by anyone at all.").toList),
   (("edibility_rating").toList, .num 1)]

/-- A concrete plant record with no edibility rating and a long
description, used to exercise the missing-rating policy. -/
def exPlantRecordNoRating : JRecord :=
  [(("common_name").toList, .str ("Unknown Plant").toList),
   (("description").toList,
     .str ("A mysterious plant with no known edibility information provided anywhere in the available sources.").toList)]

/-- Whether a JSON value is a scalar or a string at most 20 characters
long — the values `JSONParser._parse_item` never turns into a content
block. -/
def scalarOrShort : JValue → Bool
  | .str s => s.length ≤ 20
  | .num _ => true
  | .bl _ => true
  | .listStr _ => false

/-- A record whose only string fields are under the default minimum
content length (50) yet whose description field exceeds the 20-character
inclusion threshold. -/
def exJsonRecord : JRecord :=
  [(("title").toList, .str ("X").toList),
   (("description").toList,
     .str ("aaaaaaaaaaaaaaaaaaaaaaaaaaaaaaaaaaaaaaaaaaaaa").toList)]

/-- A record with a single short string field, dropped by both JSON
parsing paths. -/
def exShortRecord : JRecord :=
  [(("note").toList, .str ("short").toList)]

/-- A concrete structurally sound database with one survival row at
rowid 1, used by the verification instantiations. -/
def exDb : DBFile :=
  { integrityOk := true
    hasEntriesTable := true
    hasFtsTable := true
    rows := [(1, exEntry)] }

/-- A concrete one-item vector index with label 1. -/
def exIdx : HnswIndex Nat :=
  { items := [(1, 0)] }

/-- A concrete manifest whose recorded `sha256` value is a digest that
matches no artifact ("deadbeef"), with the required fields present and
a correct entry count. -/
def exMan : List (Str × MVal) :=
  [(("version").toList, .s ("1.0.0").toList),
   (("total_entries").toList, .n 1),
   (("categories").toList, .kv [(("survival").toList, .n 1)]),
   (("files").toList, .kv
     [(("knowledge.db").toList, .kv
       [(("size_bytes").toList, .n 2),
        (("sha256").toList, .s ("deadbeef").toList)])])]

/-- A concrete nearest-neighbour function returning label 1 for every
query. -/
def exSearch : Str → List Nat :=
  fun _ => [1]

/-- A concrete whole-file digest function (the decimal length of the
byte string), standing in for SHA-256 in concrete instantiations. -/
def exHash : List Nat → Str :=
  fun bs => (toString bs.length).toList

/-!  Basic facts about the run predicates. -/

theorem noAdjAux_mono (p : Char → Bool) (b : Bool) (cs : Str)
    (h : noAdjAux p b cs = true) : noAdjAux p false cs = true := by
  cases cs with
  | nil => rfl
  | cons c rest =>
    simp only [noAdjAux, Bool.and_eq_true, Bool.false_and, Bool.not_false,
      Bool.true_and] at h ⊢
    exact h.2

theorem noAdjAux_append_left (p : Char → Bool) (b : Bool) (l r : Str)
    (h : noAdjAux p b (l ++ r) = true) : noAdjAux p b l = true := by
  induction l generalizing b with
  | nil => rfl
  | cons c rest ih =>
    simp only [List.cons_append, noAdjAux, Bool.and_eq_true] at h ⊢
    exact ⟨h.1, ih _ h.2⟩

theorem noAdjAux_append_right (p : Char → Bool) (b : Bool) (l r : Str)
    (h : noAdjAux p b (l ++ r) = true) : noAdjAux p false r = true := by
  induction l generalizing b with
  | nil => exact noAdjAux_mono p b r h
  | cons c rest ih =>
    simp only [List.cons_append, noAdjAux, Bool.and_eq_true] at h
    exact ih _ h.2

theorem no3Aux_mono (m n : Nat) (cs : Str) (hmn : m ≤ n)
    (h : no3Aux n cs = true) : no3Aux m cs = true := by
  induction cs generalizing m n with
  | nil => rfl
  | cons c rest ih =>
    simp only [no3Aux] at h ⊢
    by_cases hc : c = '\n'
    · rw [if_pos hc] at h ⊢
      rw [Bool.and_eq_true] at h ⊢
      refine ⟨?_, ih (m + 1) (n + 1) (by omega) h.2⟩
      have := of_decide_eq_true h.1
      exact decide_eq_true (by omega)
    · rw [if_neg hc] at h ⊢
      exact h

theorem no3Aux_append_left (n : Nat) (l r : Str)
    (h : no3Aux n (l ++ r) = true) : no3Aux n l = true := by
  induction l generalizing n with
  | nil => rfl
  | cons c rest ih =>
    simp only [List.cons_append, no3Aux] at h ⊢
    by_cases hc : c = '\n'
    · rw [if_pos hc] at h ⊢
      rw [Bool.and_eq_true] at h ⊢
      exact ⟨h.1, ih _ h.2⟩
    · rw [if_neg hc] at h ⊢
      exact ih _ h

theorem no3Aux_append_right (n : Nat) (l r : Str)
    (h : no3Aux n (l ++ r) = true) : no3Aux 0 r = true := by
  induction l generalizing n with
  | nil => exact no3Aux_mono 0 n r (Nat.zero_le n) h
  | cons c rest ih =>
    simp only [List.cons_append, no3Aux] at h
    by_cases hc : c = '\n'
    · rw [if_pos hc] at h
      rw [Bool.and_eq_true] at h
      exact ih _ h.2
    · rw [if_neg hc] at h
      exact ih _ h

/-!  Properties of `collapseRuns`. -/

theorem collapseRunsAux_chars (p : Char → Bool) (b : Bool) (cs : Str) :
    ∀ c ∈ collapseRunsAux p b cs, c = ' ' ∨ (c ∈ cs ∧ p c = false) := by
  induction cs generalizing b with
  | nil => intro c hc; simp [collapseRunsAux] at hc
  | cons d rest ih =>
    intro c hc
    simp only [collapseRunsAux] at hc
    by_cases hpd : p d
    · rw [if_pos hpd] at hc
      rcases List.mem_append.mp hc with h1 | h2
      · left
        cases b with
        | true => simp at h1
        | false => simpa using h1
      · rcases ih true c h2 with h | h
        · exact Or.inl h
        · exact Or.inr ⟨List.mem_cons_of_mem d h.1, h.2⟩
    · rw [if_neg hpd] at hc
      rcases List.mem_cons.mp hc with h1 | h2
      · subst h1
        exact Or.inr ⟨List.mem_cons_self c rest, by simpa using hpd⟩
      · rcases ih false c h2 with h | h
        · exact Or.inl h
        · exact Or.inr ⟨List.mem_cons_of_mem d h.1, h.2⟩

theorem collapseRunsAux_wsOnly (p : Char → Bool) (b : Bool) (cs : Str) :
    wsOnlySpace p (collapseRunsAux p b cs) = true := by
  rw [wsOnlySpace, List.all_eq_true]
  intro c hc
  rcases collapseRunsAux_chars p b cs c hc with h | h
  · simp [h]
  · simp [h.2]

theorem collapseRunsAux_noAdj (p : Char → Bool) (hp : p ' ' = true)
    (cs : Str) : ∀ b, noAdjAux p b (collapseRunsAux p b cs) = true := by
  induction cs with
  | nil => intro b; rfl
  | cons d rest ih =>
    intro b
    simp only [collapseRunsAux]
    by_cases hpd : p d
    · rw [if_pos hpd]
      cases b with
      | true => simpa using ih true
      | false =>
        simp only [List.singleton_append, noAdjAux, hp, Bool.false_and,
          Bool.not_false, Bool.true_and]
        exact ih true
    · rw [if_neg hpd]
      simp only [noAdjAux, hpd, Bool.and_false, Bool.not_false, Bool.true_and]
      exact ih false

theorem collapseRunsAux_id (p : Char → Bool) (cs : Str) :
    ∀ b, wsOnlySpace p cs = true → noAdjAux p b cs = true →
      collapseRunsAux p b cs = cs := by
  induction cs with
  | nil => intro b _ _; rfl
  | cons d rest ih =>
    intro b hws hadj
    rw [wsOnlySpace, List.all_cons, Bool.and_eq_true] at hws
    simp only [noAdjAux, Bool.and_eq_true] at hadj
    simp only [collapseRunsAux]
    by_cases hpd : p d
    · have hd : d = ' ' := by
        have := hws.1
        rw [hpd] at this
        simpa using this
      have hb : b = false := by
        cases b with
        | false => rfl
        | true => rw [hpd] at hadj; simp at hadj
      subst hb
      rw [if_pos hpd]
      have := ih true hws.2 (by rw [hpd] at hadj; exact hadj.2)
      simp [this, hd]
    · rw [if_neg hpd]
      have := ih false hws.2 (by
        have h2 := hadj.2
        rw [Bool.eq_false_iff.mpr hpd] at h2
        exact h2)
      rw [this]

theorem collapseRuns_id (p : Char → Bool) (cs : Str)
    (hws : wsOnlySpace p cs = true) (hadj : noAdj p cs = true) :
    collapseRuns p cs = cs :=
  collapseRunsAux_id p cs false hws hadj

/-!  Properties of `normCr`. -/

theorem normCrAux_chars (f : Bool) (cs : Str) :
    ∀ c ∈ normCrAux f cs, c = '\n' ∨ c ∈ cs := by
  induction cs generalizing f with
  | nil => intro c hc; simp [normCrAux] at hc
  | cons d rest ih =>
    intro c hc
    simp only [normCrAux] at hc
    by_cases hd : d = '\r'
    · rw [if_pos hd] at hc
      rcases List.mem_cons.mp hc with h1 | h2
      · exact Or.inl h1
      · rcases ih true c h2 with h | h
        · exact Or.inl h
        · exact Or.inr (List.mem_cons_of_mem d h)
    · rw [if_neg hd] at hc
      by_cases hskip : (f && (d = '\n' : Bool)) = true
      · rw [if_pos hskip] at hc
        rcases ih false c hc with h | h
        · exact Or.inl h
        · exact Or.inr (List.mem_cons_of_mem d h)
      · rw [if_neg hskip] at hc
        rcases List.mem_cons.mp hc with h1 | h2
        · exact Or.inr (h1 ▸ List.mem_cons_self d rest)
        · rcases ih false c h2 with h | h
          · exact Or.inl h
          · exact Or.inr (List.mem_cons_of_mem d h)

theorem normCrAux_noCr (f : Bool) (cs : Str) :
    noChar '\r' (normCrAux f cs) = true := by
  induction cs generalizing f with
  | nil => rfl
  | cons d rest ih =>
    simp only [normCrAux]
    by_cases hd : d = '\r'
    · rw [if_pos hd]
      rw [noChar, List.all_cons, Bool.and_eq_true]
      exact ⟨by decide, ih true⟩
    · rw [if_neg hd]
      by_cases hskip : (f && (d = '\n' : Bool)) = true
      · rw [if_pos hskip]
        exact ih false
      · rw [if_neg hskip]
        rw [noChar, List.all_cons, Bool.and_eq_true]
        refine ⟨?_, ih false⟩
        simpa using hd

theorem normCrAux_id (cs : Str) (h : noChar '\r' cs = true) :
    normCrAux false cs = cs := by
  induction cs with
  | nil => rfl
  | cons d rest ih =>
    rw [noChar, List.all_cons, Bool.and_eq_true] at h
    have hd : ¬ d = '\r' := by simpa using h.1
    simp only [normCrAux, if_neg hd, Bool.false_and, Bool.false_eq_true,
      if_false]
    rw [ih h.2]

theorem normCrAux_noAdj (p : Char → Bool) (hpr : p '\r' = false)
    (hpn : p '\n' = false) (cs : Str) :
    ∀ f b, noAdjAux p b cs = true →
      noAdjAux p (if f then false else b) (normCrAux f cs) = true := by
  induction cs with
  | nil => intro f b _; rfl
  | cons d rest ih =>
    intro f b h
    simp only [noAdjAux, Bool.and_eq_true] at h
    simp only [normCrAux]
    by_cases hd : d = '\r'
    · rw [if_pos hd]
      simp only [noAdjAux, hpn, Bool.and_false, Bool.not_false, Bool.true_and]
      have hrest : noAdjAux p false rest = true := by
        have := h.2
        rw [hd, hpr] at this
        exact this
      have := ih true false hrest
      simpa using this
    · rw [if_neg hd]
      by_cases hskip : (f && (d = '\n' : Bool)) = true
      · rw [if_pos hskip]
        have hf : f = true := by
          rcases Bool.and_eq_true .. ▸ hskip with ⟨h1, _⟩
          exact h1
        have hdn : d = '\n' := by
          rcases Bool.and_eq_true .. ▸ hskip with ⟨_, h2⟩
          simpa using h2
        have hrest : noAdjAux p false rest = true := by
          have := h.2
          rw [hdn, hpn] at this
          exact this
        have := ih false false hrest
        simp only [if_neg (by simp : ¬ false = true)] at this
        simpa [hf] using this
      · rw [if_neg hskip]
        simp only [noAdjAux, Bool.and_eq_true]
        constructor
        · cases f with
          | true => simp
          | false => simpa using h.1
        · have := ih false (p d) h.2
          simpa using this

/-!  Properties of `collapse3nl`. -/

theorem collapse3nlAux_chars (n : Nat) (cs : Str) :
    ∀ c ∈ collapse3nlAux n cs, c = '\n' ∨ c ∈ cs := by
  induction cs generalizing n with
  | nil =>
    intro c hc
    simp only [collapse3nlAux] at hc
    exact Or.inl (List.eq_of_mem_replicate hc)
  | cons d rest ih =>
    intro c hc
    simp only [collapse3nlAux] at hc
    by_cases hd : d = '\n'
    · rw [if_pos hd] at hc
      rcases ih (n + 1) c hc with h | h
      · exact Or.inl h
      · exact Or.inr (List.mem_cons_of_mem d h)
    · rw [if_neg hd] at hc
      rcases List.mem_append.mp hc with h1 | h2
      · exact Or.inl (List.eq_of_mem_replicate h1)
      · rcases List.mem_cons.mp h2 with h3 | h4
        · exact Or.inr (h3 ▸ List.mem_cons_self d rest)
        · rcases ih 0 c h4 with h | h
          · exact Or.inl h
          · exact Or.inr (List.mem_cons_of_mem d h)

theorem no3Aux_replicate (k : Nat) (hk : k < 3) :
    no3Aux 0 (List.replicate k '\n') = true := by
  interval_cases k <;> decide

theorem no3Aux_replicate_append (k : Nat) (hk : k < 3) (c : Char)
    (hc : ¬ c = '\n') (l : Str) (hl : no3Aux 0 l = true) :
    no3Aux 0 (List.replicate k '\n' ++ c :: l) = true := by
  interval_cases k <;>
    simp only [List.replicate, List.cons_append, List.nil_append, no3Aux,
      if_pos rfl, if_neg hc, Bool.and_eq_true] <;>
    exact hl

theorem collapse3nlAux_no3 (n : Nat) (cs : Str) :
    no3Aux 0 (collapse3nlAux n cs) = true := by
  induction cs generalizing n with
  | nil =>
    simp only [collapse3nlAux]
    exact no3Aux_replicate _ (by split <;> omega)
  | cons d rest ih =>
    simp only [collapse3nlAux]
    by_cases hd : d = '\n'
    · rw [if_pos hd]
      exact ih (n + 1)
    · rw [if_neg hd]
      exact no3Aux_replicate_append _ (by split <;> omega) d hd _ (ih 0)

theorem collapse3nlAux_id (n : Nat) (cs : Str) (hn : n < 3)
    (h : no3Aux n cs = true) :
    collapse3nlAux n cs = List.replicate n '\n' ++ cs := by
  induction cs generalizing n with
  | nil =>
    simp only [collapse3nlAux, if_neg (by omega : ¬ 3 ≤ n), List.append_nil]
  | cons d rest ih =>
    simp only [no3Aux] at h
    simp only [collapse3nlAux]
    by_cases hd : d = '\n'
    · rw [if_pos hd] at h ⊢
      rw [Bool.and_eq_true, decide_eq_true_eq] at h
      rw [ih (n + 1) h.1 h.2, hd]
      rw [List.replicate_succ' n '\n']
      simp [List.append_assoc]
    · rw [if_neg hd] at h ⊢
      rw [if_neg (by omega : ¬ 3 ≤ n), ih 0 (by omega) h]
      simp

theorem collapse3nl_id (cs : Str) (h : no3 cs = true) :
    collapse3nl cs = cs := by
  have := collapse3nlAux_id 0 cs (by omega) h
  simpa [collapse3nl] using this

theorem collapse3nlAux_head (n : Nat) (cs : Str) (hn : 1 ≤ n) :
    ∃ t, collapse3nlAux n cs = '\n' :: t := by
  induction cs generalizing n with
  | nil =>
    simp only [collapse3nlAux]
    obtain ⟨m, hm⟩ : ∃ m, (if 3 ≤ n then 2 else n) = m + 1 :=
      ⟨(if 3 ≤ n then 2 else n) - 1, by split <;> omega⟩
    rw [hm, List.replicate_succ]
    exact ⟨List.replicate m '\n', rfl⟩
  | cons d rest ih =>
    simp only [collapse3nlAux]
    by_cases hd : d = '\n'
    · rw [if_pos hd]
      exact ih (n + 1) (by omega)
    · rw [if_neg hd]
      obtain ⟨m, hm⟩ : ∃ m, (if 3 ≤ n then 2 else n) = m + 1 :=
        ⟨(if 3 ≤ n then 2 else n) - 1, by split <;> omega⟩
      rw [hm, List.replicate_succ]
      exact ⟨List.replicate m '\n' ++ d :: collapse3nlAux 0 rest, by simp⟩

theorem noAdjAux_flag_of_head_nl (p : Char → Bool) (hpn : p '\n' = false)
    (b : Bool) (t : Str) :
    noAdjAux p b ('\n' :: t) = noAdjAux p false t := by
  simp [noAdjAux, hpn]

theorem noAdjAux_replicate_nl (p : Char → Bool) (hpn : p '\n' = false)
    (k : Nat) (hk : 1 ≤ k) (b : Bool) (l : Str) :
    noAdjAux p b (List.replicate k '\n' ++ l) = noAdjAux p false l := by
  induction k generalizing b with
  | zero => omega
  | succ k ih =>
    rw [List.replicate_succ, List.cons_append,
      noAdjAux_flag_of_head_nl p hpn]
    cases k with
    | zero => simp
    | succ m => exact ih (by omega) false

theorem collapse3nlAux_noAdj (p : Char → Bool) (hpn : p '\n' = false)
    (cs : Str) : ∀ n b, noAdjAux p b cs = true →
      noAdjAux p b (collapse3nlAux n cs) = true := by
  induction cs with
  | nil =>
    intro n b _
    simp only [collapse3nlAux]
    rcases Nat.eq_zero_or_pos (if 3 ≤ n then 2 else n) with h0 | h1
    · rw [h0]; rfl
    · have := noAdjAux_replicate_nl p hpn _ h1 b ([] : Str)
      simpa using this
  | cons d rest ih =>
    intro n b h
    simp only [noAdjAux, Bool.and_eq_true] at h
    simp only [collapse3nlAux]
    by_cases hd : d = '\n'
    · rw [if_pos hd]
      have hrest : noAdjAux p false rest = true := by
        have := h.2
        rw [hd, hpn] at this
        exact this
      have hres := ih (n + 1) false hrest
      obtain ⟨t, ht⟩ := collapse3nlAux_head (n + 1) rest (by omega)
      rw [ht] at hres ⊢
      rw [noAdjAux_flag_of_head_nl p hpn] at hres ⊢
      exact hres
    · rw [if_neg hd]
      have htail : noAdjAux p (p d) (collapse3nlAux 0 rest) = true :=
        ih 0 (p d) h.2
      rcases Nat.eq_zero_or_pos (if 3 ≤ n then 2 else n) with h0 | h1
      · rw [h0]
        simp only [List.replicate, List.nil_append, noAdjAux,
          Bool.and_eq_true]
        exact ⟨h.1, htail⟩
      · rw [noAdjAux_replicate_nl p hpn _ h1]
        simp only [noAdjAux, Bool.false_and, Bool.not_false, Bool.true_and]
        exact htail

/-!  Properties of `pyStrip`. -/

theorem dropTrailing_append (p : Char → Bool) (cs : Str) :
    cs = dropTrailing p cs ++ (cs.reverse.takeWhile p).reverse := by
  rw [dropTrailing]
  rw [← List.reverse_append]
  rw [List.takeWhile_append_dropWhile]
  rw [List.reverse_reverse]

theorem pyStrip_middle (p : Char → Bool) (cs : Str) :
    ∃ l r, cs = l ++ dropTrailing p (cs.dropWhile p) ++ r := by
  refine ⟨cs.takeWhile p, ((cs.dropWhile p).reverse.takeWhile p).reverse, ?_⟩
  conv_lhs => rw [← List.takeWhile_append_dropWhile p cs]
  rw [List.append_assoc]
  congr 1
  exact dropTrailing_append p (cs.dropWhile p)

theorem pyStrip_eq_middle (cs : Str) :
    ∃ l r, cs = l ++ pyStrip cs ++ r :=
  pyStrip_middle isPySpace cs

theorem all_of_middle (f : Char → Bool) (l m r : Str)
    (h : (l ++ m ++ r).all f = true) : m.all f = true := by
  simp only [List.all_append, Bool.and_eq_true] at h
  exact h.1.2

theorem noAdj_of_middle (p : Char → Bool) (l m r : Str)
    (h : noAdjAux p false (l ++ m ++ r) = true) :
    noAdjAux p false m = true := by
  rw [List.append_assoc] at h
  have h2 := noAdjAux_append_right p false l (m ++ r) h
  exact noAdjAux_append_left p false m r h2

theorem no3_of_middle (l m r : Str)
    (h : no3Aux 0 (l ++ m ++ r) = true) : no3Aux 0 m = true := by
  rw [List.append_assoc] at h
  have h2 := no3Aux_append_right 0 l (m ++ r) h
  exact no3Aux_append_left 0 m r h2

theorem headOk_dropWhile (p : Char → Bool) (cs : Str) :
    headOk p (cs.dropWhile p) = true := by
  induction cs with
  | nil => rfl
  | cons c rest ih =>
    by_cases hc : p c
    · rw [List.dropWhile_cons_of_pos hc]
      exact ih
    · rw [List.dropWhile_cons_of_neg hc]
      simpa [headOk] using hc

theorem headOk_dropTrailing (p : Char → Bool) (cs : Str)
    (h : headOk p cs = true) : headOk p (dropTrailing p cs) = true := by
  have hr := dropTrailing_append p cs
  cases hdt : dropTrailing p cs with
  | nil => rfl
  | cons c t =>
    rw [hdt, List.cons_append] at hr
    rw [hr] at h
    exact h

theorem pyStrip_headOk (cs : Str) : headOk isPySpace (pyStrip cs) = true :=
  headOk_dropTrailing isPySpace (cs.dropWhile isPySpace)
    (headOk_dropWhile isPySpace cs)

theorem pyStrip_reverse_headOk (cs : Str) :
    headOk isPySpace (pyStrip cs).reverse = true := by
  rw [pyStrip, dropTrailing, List.reverse_reverse]
  exact headOk_dropWhile isPySpace (cs.dropWhile isPySpace).reverse

theorem pyStrip_endsOk (cs : Str) : endsOk isPySpace (pyStrip cs) = true := by
  rw [endsOk, Bool.and_eq_true]
  exact ⟨pyStrip_headOk cs, pyStrip_reverse_headOk cs⟩

theorem dropWhile_of_headOk (p : Char → Bool) (cs : Str)
    (h : headOk p cs = true) : cs.dropWhile p = cs := by
  cases cs with
  | nil => rfl
  | cons c rest =>
    have : ¬ p c = true := by simpa [headOk] using h
    exact List.dropWhile_cons_of_neg this

theorem pyStrip_id (cs : Str) (h : endsOk isPySpace cs = true) :
    pyStrip cs = cs := by
  rw [endsOk, Bool.and_eq_true] at h
  rw [pyStrip, dropWhile_of_headOk isPySpace cs h.1, dropTrailing,
    dropWhile_of_headOk isPySpace cs.reverse h.2, List.reverse_reverse]

/-!  Idempotence of the two cleaning functions. -/

theorem noNl_of_wsOnly (cs : Str) (h : wsOnlySpace isPySpace cs = true) :
    noChar '\n' cs = true := by
  rw [wsOnlySpace, List.all_eq_true] at h
  rw [noChar, List.all_eq_true]
  intro c hc
  have hor := h c hc
  simp only [Bool.or_eq_true, Bool.not_eq_true', decide_eq_true_eq] at hor
  simp only [bne_iff_ne, ne_eq]
  rcases hor with h1 | h2
  · intro hcn
    rw [hcn] at h1
    simp [isPySpace] at h1
  · rw [h2]
    decide

theorem no3_of_noNl (cs : Str) (h : noChar '\n' cs = true) :
    no3 cs = true := by
  rw [noChar, List.all_eq_true] at h
  rw [no3]
  induction cs with
  | nil => rfl
  | cons c rest ih =>
    have hc : ¬ c = '\n' := by
      have := h c (List.mem_cons_self c rest)
      simpa [bne_iff_ne] using this
    rw [no3Aux, if_neg hc]
    exact ih (fun d hd => h d (List.mem_cons_of_mem c hd))

theorem noChar_of_middle (c0 : Char) (l m r : Str)
    (h : noChar c0 (l ++ m ++ r) = true) : noChar c0 m = true :=
  all_of_middle _ l m r h

theorem collapseRuns_wsOnly (p : Char → Bool) (cs : Str) :
    wsOnlySpace p (collapseRuns p cs) = true :=
  collapseRunsAux_wsOnly p false cs

theorem collapseRuns_noAdj (p : Char → Bool) (hp : p ' ' = true) (cs : Str) :
    noAdj p (collapseRuns p cs) = true :=
  collapseRunsAux_noAdj p hp cs false

theorem normCr_id (cs : Str) (h : noChar '\r' cs = true) : normCr cs = cs :=
  normCrAux_id cs h

theorem normCr_noCr (cs : Str) : noChar '\r' (normCr cs) = true :=
  normCrAux_noCr false cs

theorem normCr_noAdj (p : Char → Bool) (hpr : p '\r' = false)
    (hpn : p '\n' = false) (cs : Str) (h : noAdj p cs = true) :
    noAdj p (normCr cs) = true := by
  have := normCrAux_noAdj p hpr hpn cs false false h
  simpa using this

theorem collapse3nl_no3 (cs : Str) : no3 (collapse3nl cs) = true :=
  collapse3nlAux_no3 0 cs

theorem collapse3nl_noAdj (p : Char → Bool) (hpn : p '\n' = false)
    (cs : Str) (h : noAdj p cs = true) : noAdj p (collapse3nl cs) = true :=
  collapse3nlAux_noAdj p hpn cs 0 false h

theorem clean_text_eq (x : Str) :
    clean_text x = pyStrip (collapseRuns isPySpace x) := by
  rw [clean_text, collapse3nl_id _ (no3_of_noNl _ (noNl_of_wsOnly _
    (collapseRuns_wsOnly isPySpace x)))]

theorem clean_text_wsOnly (x : Str) :
    wsOnlySpace isPySpace (clean_text x) = true := by
  rw [clean_text_eq]
  obtain ⟨l, r, hm⟩ := pyStrip_eq_middle (collapseRuns isPySpace x)
  have hX := collapseRuns_wsOnly isPySpace x
  rw [hm] at hX
  exact all_of_middle _ l _ r hX

theorem clean_text_noAdj (x : Str) :
    noAdj isPySpace (clean_text x) = true := by
  rw [clean_text_eq]
  obtain ⟨l, r, hm⟩ := pyStrip_eq_middle (collapseRuns isPySpace x)
  have hX := collapseRuns_noAdj isPySpace (by decide) x
  rw [hm] at hX
  exact noAdj_of_middle _ l _ r hX

theorem clean_text_idem (x : Str) :
    clean_text (clean_text x) = clean_text x := by
  have hws := clean_text_wsOnly x
  have hadj := clean_text_noAdj x
  have hends : endsOk isPySpace (clean_text x) = true := by
    rw [clean_text_eq]
    exact pyStrip_endsOk _
  rw [clean_text, collapseRuns_id isPySpace _ hws hadj,
    collapse3nl_id _ (no3_of_noNl _ (noNl_of_wsOnly _ hws)),
    pyStrip_id _ hends]

theorem pdf_clean_eq (x : Str) :
    PDFParser.clean_text x =
      pyStrip (collapse3nl (normCr (collapseRuns isSpTab x))) := by
  rw [PDFParser.clean_text]

theorem pdf_clean_wsOnly (x : Str) :
    wsOnlySpace isSpTab (PDFParser.clean_text x) = true := by
  rw [pdf_clean_eq]
  obtain ⟨l, r, hm⟩ :=
    pyStrip_eq_middle (collapse3nl (normCr (collapseRuns isSpTab x)))
  have hX : wsOnlySpace isSpTab
      (collapse3nl (normCr (collapseRuns isSpTab x))) = true := by
    rw [wsOnlySpace, List.all_eq_true]
    intro c hc
    rcases collapse3nlAux_chars 0 _ c hc with h1 | h1
    · rw [h1]; decide
    · rcases normCrAux_chars false _ c h1 with h2 | h2
      · rw [h2]; decide
      · have := collapseRuns_wsOnly isSpTab x
        rw [wsOnlySpace, List.all_eq_true] at this
        exact this c h2
  rw [hm] at hX
  exact all_of_middle _ l _ r hX

theorem pdf_clean_noAdj (x : Str) :
    noAdj isSpTab (PDFParser.clean_text x) = true := by
  rw [pdf_clean_eq]
  obtain ⟨l, r, hm⟩ :=
    pyStrip_eq_middle (collapse3nl (normCr (collapseRuns isSpTab x)))
  have hX : noAdj isSpTab
      (collapse3nl (normCr (collapseRuns isSpTab x))) = true :=
    collapse3nl_noAdj isSpTab (by decide) _
      (normCr_noAdj isSpTab (by decide) (by decide) _
        (collapseRuns_noAdj isSpTab (by decide) x))
  rw [hm] at hX
  exact noAdj_of_middle _ l _ r hX

theorem pdf_clean_noCr (x : Str) :
    noChar '\r' (PDFParser.clean_text x) = true := by
  rw [pdf_clean_eq]
  obtain ⟨l, r, hm⟩ :=
    pyStrip_eq_middle (collapse3nl (normCr (collapseRuns isSpTab x)))
  have hX : noChar '\r'
      (collapse3nl (normCr (collapseRuns isSpTab x))) = true := by
    rw [noChar, List.all_eq_true]
    intro c hc
    rcases collapse3nlAux_chars 0 _ c hc with h1 | h1
    · rw [h1]; decide
    · have := normCr_noCr (collapseRuns isSpTab x)
      rw [noChar, List.all_eq_true] at this
      exact this c h1
  rw [hm] at hX
  exact noChar_of_middle _ l _ r hX

theorem pdf_clean_no3 (x : Str) :
    no3 (PDFParser.clean_text x) = true := by
  rw [pdf_clean_eq]
  obtain ⟨l, r, hm⟩ :=
    pyStrip_eq_middle (collapse3nl (normCr (collapseRuns isSpTab x)))
  have hX := collapse3nl_no3 (normCr (collapseRuns isSpTab x))
  rw [hm] at hX
  exact no3_of_middle l _ r hX

theorem pdf_clean_idem (x : Str) :
    PDFParser.clean_text (PDFParser.clean_text x) = PDFParser.clean_text x := by
  have hws := pdf_clean_wsOnly x
  have hadj := pdf_clean_noAdj x
  have hcr := pdf_clean_noCr x
  have h3 := pdf_clean_no3 x
  have hends : endsOk isPySpace (PDFParser.clean_text x) = true := by
    rw [PDFParser.clean_text]
    exact pyStrip_endsOk _
  conv_lhs => rw [PDFParser.clean_text]
  rw [collapseRuns_id isSpTab _ hws hadj, normCr_id _ hcr,
    collapse3nl_id _ h3, pyStrip_id _ hends]

/-!  The builder's `chunk_text` sees exactly one paragraph. -/

theorem splitParasAux_no_nl (cs : Str) (acc : Str)
    (h : ∀ c ∈ cs, ¬ c = '\n') :
    splitParasAux acc 0 cs = [acc.reverse ++ cs] := by
  induction cs generalizing acc with
  | nil => simp [splitParasAux]
  | cons c rest ih =>
    have hc : ¬ c = '\n' := h c (List.mem_cons_self c rest)
    simp only [splitParasAux, if_neg hc, if_neg (by omega : ¬ 2 ≤ 0),
      List.replicate_zero, List.nil_append]
    rw [ih (c :: acc) (fun d hd => h d (List.mem_cons_of_mem c hd))]
    simp

theorem splitParas_of_noNl (cs : Str) (h : noChar '\n' cs = true) :
    splitParas cs = [cs] := by
  rw [noChar, List.all_eq_true] at h
  have : ∀ c ∈ cs, ¬ c = '\n' := by
    intro c hc
    simpa [bne_iff_ne] using h c hc
  simpa using splitParasAux_no_nl cs [] this

theorem clean_text_stripped (x : Str) :
    pyStrip (clean_text x) = clean_text x := by
  rw [clean_text_eq]
  exact pyStrip_id _ (pyStrip_endsOk _)

theorem chunk_text_eq (chunkSize overlap : Nat) (text : Str) :
    chunk_text chunkSize overlap text =
      if (clean_text text).length < MIN_CHUNK_SIZE then []
      else [clean_text text] := by
  rw [chunk_text]
  by_cases hlt : (clean_text text).length < MIN_CHUNK_SIZE
  · simp [hlt]
  · rw [if_neg hlt, if_neg hlt]
    rw [splitParas_of_noNl _ (noNl_of_wsOnly _ (clean_text_wsOnly text))]
    have hne : clean_text text ≠ [] := by
      intro h0
      rw [h0] at hlt
      simp [MIN_CHUNK_SIZE] at hlt
    have hge := Nat.le_of_not_lt hlt
    have hstep : buildStep chunkSize overlap ([], []) (clean_text text) =
        (clean_text text, []) := by
      simp [buildStep, clean_text_stripped, hne, MIN_CHUNK_SIZE]
    rw [buildChunkList, List.foldl_cons, List.foldl_nil, hstep]
    simp [hne, hge]

/-!  Chunk length bounds for `PDFParser._chunk_text`. -/

theorem lastN_length_le (n : Nat) (l : Str) : (lastN n l).length ≤ n := by
  simp only [lastN, List.length_drop]
  omega

theorem pdf_step_cases (S O M : Nat) (st : Str × List Str) (p : Str) :
    (pyStrip p = [] ∧ PDFParser.step S O M st p = st) ∨
    (pyStrip p ≠ [] ∧ S < st.1.length + (pyStrip p).length + 2 ∧
      PDFParser.step S O M st p =
        (if 0 < O then lastN O st.1 ++ ' ' :: pyStrip p else pyStrip p,
         if M ≤ st.1.length then st.2 ++ [st.1] else st.2)) ∨
    (pyStrip p ≠ [] ∧ ¬ S < st.1.length + (pyStrip p).length + 2 ∧
      PDFParser.step S O M st p =
        (if st.1 = [] then pyStrip p else st.1 ++ '\n' :: '\n' :: pyStrip p,
         st.2)) := by
  by_cases hp : pyStrip p = []
  · exact Or.inl ⟨hp, by simp [PDFParser.step, hp]⟩
  · by_cases hex : S < st.1.length + (pyStrip p).length + 2
    · exact Or.inr (Or.inl ⟨hp, hex, by simp [PDFParser.step, hp, hex]⟩)
    · exact Or.inr (Or.inr ⟨hp, hex, by simp [PDFParser.step, hp, hex]⟩)

theorem pdf_fold_min (S O M : Nat) (paras : List Str) :
    ∀ st : Str × List Str, (∀ c ∈ st.2, M ≤ c.length) →
      ∀ c ∈ (paras.foldl (PDFParser.step S O M) st).2, M ≤ c.length := by
  induction paras with
  | nil => intro st hst; exact hst
  | cons p rest ih =>
    intro st hst
    rw [List.foldl_cons]
    apply ih
    rcases pdf_step_cases S O M st p with ⟨_, heq⟩ | ⟨_, _, heq⟩ | ⟨_, _, heq⟩
    · rw [heq]; exact hst
    · rw [heq]
      by_cases hm : M ≤ st.1.length
      · rw [if_pos hm]
        intro c hc
        rcases List.mem_append.mp hc with h1 | h2
        · exact hst c h1
        · rw [List.mem_singleton.mp h2]
          exact hm
      · rw [if_neg hm]
        exact hst
    · rw [heq]
      exact hst

theorem pdf_chunkList_min (S O M : Nat) (paras : List Str) :
    ∀ c ∈ PDFParser.chunkList S O M paras, M ≤ c.length := by
  intro c hc
  rw [PDFParser.chunkList] at hc
  rcases List.mem_append.mp hc with h1 | h2
  · exact pdf_fold_min S O M paras ([], []) (by intro c hc; simp at hc) c h1
  · by_cases hcond : (paras.foldl (PDFParser.step S O M) ([], [])).1 ≠ [] ∧
        M ≤ (paras.foldl (PDFParser.step S O M) ([], [])).1.length
    · rw [if_pos hcond] at h2
      rw [List.mem_singleton.mp h2]
      exact hcond.2
    · rw [if_neg hcond] at h2
      simp at h2

theorem pdf_chunk_text_min (S O M : Nat) (text : Str) :
    ∀ c ∈ PDFParser.chunk_text S O M text, M ≤ c.length := by
  intro c hc
  rw [PDFParser.chunk_text] at hc
  by_cases hlt : text.length < M
  · rw [if_pos hlt] at hc
    simp at hc
  · rw [if_neg hlt] at hc
    exact pdf_chunkList_min S O M (splitParas text) c hc

theorem pdf_fold_bound (S O M : Nat) (hOM : O < M) (paras : List Str)
    (hpara : ∀ p ∈ paras, (pyStrip p).length + 2 ≤ S) :
    ∀ st : Str × List Str, st.1.length < S + M →
      (∀ c ∈ st.2, c.length < S + M) →
      (paras.foldl (PDFParser.step S O M) st).1.length < S + M ∧
        ∀ c ∈ (paras.foldl (PDFParser.step S O M) st).2, c.length < S + M := by
  induction paras with
  | nil => intro st hbuf hout; exact ⟨hbuf, hout⟩
  | cons p rest ih =>
    intro st hbuf hout
    have hp := hpara p (List.mem_cons_self p rest)
    rw [List.foldl_cons]
    apply ih (fun q hq => hpara q (List.mem_cons_of_mem p hq))
    · rcases pdf_step_cases S O M st p with ⟨_, heq⟩ | ⟨_, _, heq⟩ | ⟨_, hex, heq⟩
      · rw [heq]; exact hbuf
      · rw [heq]
        dsimp only
        by_cases hov : 0 < O
        · rw [if_pos hov]
          simp only [List.length_append, List.length_cons]
          have := lastN_length_le O st.1
          omega
        · rw [if_neg hov]
          omega
      · rw [heq]
        dsimp only
        by_cases hnil : st.1 = []
        · rw [if_pos hnil]
          omega
        · rw [if_neg hnil]
          simp only [List.length_append, List.length_cons]
          omega
    · rcases pdf_step_cases S O M st p with ⟨_, heq⟩ | ⟨_, _, heq⟩ | ⟨_, _, heq⟩
      · rw [heq]; exact hout
      · rw [heq]
        by_cases hm : M ≤ st.1.length
        · rw [if_pos hm]
          intro c hc
          rcases List.mem_append.mp hc with h1 | h2
          · exact hout c h1
          · rw [List.mem_singleton.mp h2]
            exact hbuf
        · rw [if_neg hm]
          exact hout
      · rw [heq]
        exact hout

theorem pdf_chunkList_bound (S O M : Nat) (hOM : O < M) (paras : List Str)
    (hpara : ∀ p ∈ paras, (pyStrip p).length + 2 ≤ S) :
    ∀ c ∈ PDFParser.chunkList S O M paras, c.length < S + M := by
  intro c hc
  have hfold := pdf_fold_bound S O M hOM paras hpara ([], [])
    (by simp; omega) (by intro c hc; simp at hc)
  rw [PDFParser.chunkList] at hc
  rcases List.mem_append.mp hc with h1 | h2
  · exact hfold.2 c h1
  · by_cases hcond : (paras.foldl (PDFParser.step S O M) ([], [])).1 ≠ [] ∧
        M ≤ (paras.foldl (PDFParser.step S O M) ([], [])).1.length
    · rw [if_pos hcond] at h2
      rw [List.mem_singleton.mp h2]
      exact hfold.1
    · rw [if_neg hcond] at h2
      simp at h2

theorem pdf_chunk_text_bound (S O M : Nat) (hOM : O < M) (text : Str)
    (hpara : ∀ p ∈ splitParas text, (pyStrip p).length + 2 ≤ S) :
    ∀ c ∈ PDFParser.chunk_text S O M text, c.length < S + M := by
  intro c hc
  rw [PDFParser.chunk_text] at hc
  by_cases hlt : text.length < M
  · rw [if_pos hlt] at hc
    simp at hc
  · rw [if_neg hlt] at hc
    exact pdf_chunkList_bound S O M hOM (splitParas text) hpara c hc

/-!  Identifier alignment between the relational store and the vector
index. -/

theorem toBatchesGo_flatten (bs : Nat) :
    ∀ (fuel : Nat) (l : List α), l.length ≤ fuel →
      (toBatchesGo (bs + 1) fuel l).flatten = l := by
  intro fuel
  induction fuel with
  | zero =>
    intro l hl
    have : l = [] := List.eq_nil_of_length_eq_zero (by omega)
    rw [this]
    rfl
  | succ n ih =>
    intro l hl
    cases l with
    | nil => rfl
    | cons x xs =>
      rw [toBatchesGo, List.flatten_cons]
      rw [ih _ (by
        simp only [List.length_cons] at hl
        simp only [List.length_drop, List.length_cons]
        omega)]
      exact List.take_append_drop _ _

theorem toBatches_flatten (bs : Nat) (l : List α) :
    (toBatches (bs + 1) l).flatten = l := by
  rw [toBatches, if_neg (by omega : ¬ bs + 1 = 0)]
  exact toBatchesGo_flatten bs l.length l (le_refl _)

theorem toBatches_map_flatten (bs : Nat) (f : α → β) (l : List α) :
    ((toBatches (bs + 1) l).map (fun b => b.map f)).flatten = l.map f := by
  rw [← List.map_flatten, toBatches_flatten]

theorem selectRows_ne_nil (tbl : EntriesTable) (h : tbl ≠ []) :
    selectRows tbl ≠ [] := by
  simp [selectRows]
  exact h

theorem build_vector_index_eq (embed : Str → α) (tbl : EntriesTable)
    (h : tbl ≠ []) :
    build_vector_index embed tbl =
      .ok { items := (selectRows tbl).map (fun r => (r.1, embed r.2)) } := by
  rw [build_vector_index, if_neg (selectRows_ne_nil tbl h)]
  have h100 : (100 : Nat) = 99 + 1 := rfl
  have hids : ((toBatches 100 (selectRows tbl)).map
      (fun b => b.map (fun r => r.1))).flatten =
      (selectRows tbl).map (fun r => r.1) := by
    rw [h100]
    exact toBatches_map_flatten 99 _ _
  have hembs : ((toBatches 100 (selectRows tbl)).map
      (fun b => (b.map (fun r => r.2)).map embed)).flatten =
      (selectRows tbl).map (fun r => embed r.2) := by
    have : ∀ b : List (Nat × Str), (b.map (fun r => r.2)).map embed =
        b.map (fun r => embed r.2) := by
      intro b
      rw [List.map_map]
      rfl
    simp only [this]
    rw [h100]
    exact toBatches_map_flatten 99 _ _
  simp only [hids, hembs]
  congr 1
  rw [List.zip_map']

theorem selectRows_labels (tbl : EntriesTable) :
    (selectRows tbl).map (fun r => r.1) = List.range' 1 tbl.length := by
  simp only [selectRows, List.map_map]
  have h1 : (Prod.fst ∘ fun p : Nat × Entry => (p.1 + 1, p.2.content)) =
      (fun p : Nat × Entry => p.1 + 1) := rfl
  rw [h1]
  have h2 : (fun p : Nat × Entry => p.1 + 1) =
      ((fun i => i + 1) ∘ Prod.fst) := rfl
  rw [h2, ← List.map_map, List.enum_map_fst]
  rw [List.range'_eq_map_range]
  apply List.map_congr_left
  intro i _
  omega

theorem phase1_fold (entries : List Entry) :
    ∀ acc : EntriesTable × List Nat,
      entries.foldl
        (fun acc e =>
          let ins := insert_entry acc.1 e
          (ins.1, acc.2 ++ [ins.2])) acc =
      (acc.1 ++ entries,
        acc.2 ++ List.range' (acc.1.length + 1) entries.length) := by
  induction entries with
  | nil => intro acc; simp
  | cons e rest ih =>
    intro acc
    rw [List.foldl_cons]
    rw [ih]
    simp only [insert_entry]
    rw [Prod.mk.injEq]
    constructor
    · simp
    · simp only [List.length_append, List.length_singleton, List.length_cons]
      rw [List.range'_succ]
      simp [List.append_assoc]

theorem phase1_eq (entries : List Entry) :
    phase1 entries = (entries, List.range' 1 entries.length) := by
  rw [phase1, phase1_fold entries ([], [])]
  simp

theorem build_vector_index_items (embed : Str → α) (tbl : EntriesTable)
    (h : tbl ≠ []) :
    build_vector_index embed tbl =
      .ok { items :=
              (List.range' 1 tbl.length).zip
                (tbl.map (fun e => embed e.content)) } := by
  rw [build_vector_index_eq embed tbl h]
  congr 1
  rw [selectRows, List.map_map]
  have hcomp : ((fun r : Nat × Str => (r.1, embed r.2)) ∘
      (fun p : Nat × Entry => (p.1 + 1, p.2.content))) =
      fun p : Nat × Entry => (p.1 + 1, embed p.2.content) := rfl
  rw [hcomp]
  have h1 : tbl.enum.map (fun p : Nat × Entry => p.1 + 1) =
      List.range' 1 tbl.length := by
    have ha : (fun p : Nat × Entry => p.1 + 1) =
        ((fun i => i + 1) ∘ Prod.fst) := rfl
    rw [ha, ← List.map_map, List.enum_map_fst, List.range'_eq_map_range]
    apply List.map_congr_left
    intro i _
    omega
  have h2 : tbl.enum.map (fun p : Nat × Entry => embed p.2.content) =
      tbl.map (fun e => embed e.content) := by
    have hb : (fun p : Nat × Entry => embed p.2.content) =
        ((fun e : Entry => embed e.content) ∘ Prod.snd) := rfl
    rw [hb, ← List.map_map, List.enum_map_snd]
  rw [← h1, ← h2, List.zip_map']

/-- C1 (amended): after the vector phase over a store of `N ≥ 1` rows,
the vector index's item count equals the relational row count, and the
index's labels are the rowids `1..N` in ascending order: for every
label `L` with `1 ≤ L ≤ N`, the item labelled `L` carries the embedding
of the relational row with identifier `L` (the row inserted at position
`L - 1`).  The label range is `[1, N]`, not `[0, N)`. -/
theorem c1_identifier_alignment (embed : Str → α) (tbl : EntriesTable)
    (h : tbl ≠ []) :
    ∃ idx, build_vector_index embed tbl = .ok idx ∧
      idx.count = countEntries tbl ∧
      idx.labels = List.range' 1 tbl.length ∧
      ∀ i, ∀ hi : i < tbl.length,
        (i + 1, embed (tbl.get ⟨i, hi⟩).content) ∈ idx.items := by
  refine ⟨_, build_vector_index_items embed tbl h, ?_, ?_, ?_⟩
  · simp [HnswIndex.count, countEntries, List.length_zip, List.length_range']
  · simp only [HnswIndex.labels]
    rw [List.map_fst_zip]
    simp [List.length_range']
  · intro i hi
    have hlen : i < ((List.range' 1 tbl.length).zip
        (tbl.map fun e => embed e.content)).length := by
      rw [List.length_zip]
      simp only [List.length_range', List.length_map]
      omega
    have hget := @List.getElem_zip _ _ (List.range' 1 tbl.length)
      (tbl.map fun e => embed e.content) i hlen
    have hib1 : i < (List.range' 1 tbl.length).length := by
      simp only [List.length_range']
      omega
    have hib2 : i < (tbl.map fun e => embed e.content).length := by
      simp only [List.length_map]
      omega
    have hr : (List.range' 1 tbl.length)[i] = i + 1 := by
      rw [List.getElem_range']
      omega
    have hm : (tbl.map fun e => embed e.content)[i] =
        embed (tbl.get ⟨i, hi⟩).content := by
      rw [List.getElem_map]
      rfl
    have hmem := List.getElem_mem hlen
    rw [hget, hr, hm] at hmem
    exact hmem

/-- C1 witness: the amended alignment instantiated at a one-row store
with a constant embedding function. -/
theorem c1_identifier_alignment_witness :
    ∃ idx, build_vector_index (fun _ => (0 : Nat)) [exEntry] = .ok idx ∧
      idx.count = countEntries [exEntry] ∧
      idx.labels = List.range' 1 [exEntry].length ∧
      ∀ i, ∀ hi : i < [exEntry].length,
        (i + 1, ((fun _ => (0 : Nat)) (([exEntry].get ⟨i, hi⟩).content)))
          ∈ idx.items :=
  c1_identifier_alignment (fun _ => (0 : Nat)) [exEntry] (by decide)

/-- C1 counterexample: with two rows the labels are `[1, 2]`: the 0th
item carries label 1 (not 0), and label 0 is absent although the
claim's range `[0, N)` contains it. -/
theorem c1_counterexample :
    (build_vector_index (fun _ => (0 : Nat)) [exEntry, exEntry2]).toOption.map
        HnswIndex.labels = some [1, 2] ∧
      ¬ ([1, 2].get? 0 = some 0) ∧ ¬ 0 ∈ [1, 2] := by
  refine ⟨by rfl, by decide, by decide⟩

/-- C10: phase 1 assigns row identifiers as consecutive rowids starting
at 1 in insertion order, and the vector index's external labels are
exactly these rowids read back ascending; label 0 never occurs. -/
theorem c10_rowids_consecutive (embed : Str → α) (entries : List Entry)
    (h : entries ≠ []) :
    (phase1 entries).1 = entries ∧
      (phase1 entries).2 = List.range' 1 entries.length ∧
      ∃ idx, build_vector_index embed (phase1 entries).1 = .ok idx ∧
        idx.labels = (phase1 entries).2 ∧ ¬ 0 ∈ idx.labels := by
  have hp := phase1_eq entries
  refine ⟨by rw [hp], by rw [hp], ?_⟩
  refine ⟨_, by rw [hp]; exact build_vector_index_items embed entries h,
    ?_, ?_⟩
  · simp only [HnswIndex.labels]
    rw [List.map_fst_zip, hp]
    simp [List.length_range']
  · simp only [HnswIndex.labels]
    rw [List.map_fst_zip]
    · intro hmem
      rw [List.mem_range'_1] at hmem
      omega
    · simp [List.length_range']

/-- C10 witness: the rowid/label alignment instantiated at a one-entry
build with a constant embedding function. -/
theorem c10_rowids_consecutive_witness :
    (phase1 [exEntry]).1 = [exEntry] ∧
      (phase1 [exEntry]).2 = List.range' 1 [exEntry].length ∧
      ∃ idx, build_vector_index (fun _ => (0 : Nat)) (phase1 [exEntry]).1 =
          .ok idx ∧
        idx.labels = (phase1 [exEntry]).2 ∧ ¬ 0 ∈ idx.labels :=
  c10_rowids_consecutive (fun _ => (0 : Nat)) [exEntry] (by decide)

/-- C7: with zero rows in the relational store when the vector phase
starts, the build aborts with the fatal `ValueError` before building or
persisting any vector index: the error propagates, no index file is
written, and the phase-1 artifacts are unchanged. -/
theorem c7_empty_corpus_aborts (embed : Str → α) (st : BuildArtifacts α)
    (h : st.tbl = []) :
    runVectorPhase embed st = (st, some (("No entries in database").toList)) ∧
      (runVectorPhase embed st).1.savedIndex = st.savedIndex ∧
      (runVectorPhase embed st).1.tbl = st.tbl := by
  have herr : build_vector_index embed st.tbl =
      .error (("No entries in database").toList) := by
    rw [h, build_vector_index]
    rw [if_pos (by rfl)]
  have hrun : runVectorPhase embed st =
      (st, some (("No entries in database").toList)) := by
    rw [runVectorPhase, herr]
  exact ⟨hrun, by rw [hrun], by rw [hrun]⟩

/-- C7 witness: the empty-corpus abort at a concrete empty build
state. -/
theorem c7_empty_corpus_aborts_witness :
    runVectorPhase (fun _ => (0 : Nat)) (⟨[], none⟩ : BuildArtifacts Nat) =
      (⟨[], none⟩, some (("No entries in database").toList)) ∧
      (runVectorPhase (fun _ => (0 : Nat))
        (⟨[], none⟩ : BuildArtifacts Nat)).1.savedIndex = none ∧
      (runVectorPhase (fun _ => (0 : Nat))
        (⟨[], none⟩ : BuildArtifacts Nat)).1.tbl = [] :=
  c7_empty_corpus_aborts (fun _ => (0 : Nat)) ⟨[], none⟩ rfl

/-- C5: text cleaning is idempotent: `clean(clean(x)) = clean(x)` for
every text `x`, both for the builder's `clean_text` and for
`PDFParser._clean_text`. -/
theorem c5_cleaning_idempotent (x : Str) :
    clean_text (clean_text x) = clean_text x ∧
      PDFParser.clean_text (PDFParser.clean_text x) =
        PDFParser.clean_text x :=
  ⟨clean_text_idem x, pdf_clean_idem x⟩

/-- C3: the builder's `chunk_text` emits nothing when the cleaned text
is below `MIN_CHUNK_SIZE`, and otherwise exactly one chunk equal to
`clean_text text`: the cleaner leaves no newline, so the blank-line
split always yields a single paragraph and no intermediate chunk is
ever emitted. -/
theorem c3_build_chunker_single_chunk (chunkSize overlap : Nat)
    (text : Str) :
    noChar '\n' (clean_text text) = true ∧
      chunk_text chunkSize overlap text =
        (if (clean_text text).length < MIN_CHUNK_SIZE then []
         else [clean_text text]) :=
  ⟨noNl_of_wsOnly _ (clean_text_wsOnly text),
    chunk_text_eq chunkSize overlap text⟩

/-- C2 (amended): for parameters `O < M < S`, every chunk either
chunker emits has length at least the minimum size; for
`PDFParser._chunk_text` every chunk is moreover shorter than `S + M`
provided each stripped paragraph of the input fits within the target
size (length + 2 ≤ S) — a single over-long paragraph can push a
non-final chunk to `S + M` or beyond.  The builder's `chunk_text`
(whose minimum is the constant `MIN_CHUNK_SIZE`) emits at most one
chunk, which therefore is the final chunk and satisfies the minimum
bound. -/
theorem c2_chunk_length_bounds (S O M : Nat) (hOM : O < M) (hMS : M < S)
    (text : Str) :
    (∀ c ∈ PDFParser.chunk_text S O M text, M ≤ c.length) ∧
      ((∀ p ∈ splitParas text, (pyStrip p).length + 2 ≤ S) →
        ∀ c ∈ PDFParser.chunk_text S O M text, c.length < S + M) ∧
      (∀ c ∈ chunk_text S O text, MIN_CHUNK_SIZE ≤ c.length) ∧
      (chunk_text S O text).length ≤ 1 := by
  refine ⟨pdf_chunk_text_min S O M text,
    fun hp => pdf_chunk_text_bound S O M hOM text hp, ?_, ?_⟩
  · intro c hc
    rw [chunk_text_eq] at hc
    by_cases hlt : (clean_text text).length < MIN_CHUNK_SIZE
    · rw [if_pos hlt] at hc
      simp at hc
    · rw [if_neg hlt] at hc
      rw [List.mem_singleton.mp hc]
      omega
  · rw [chunk_text_eq]
    split <;> simp

/-- C2 witness: the amended bounds instantiated at `S = 10`, `O = 1`,
`M = 3` on a short single-paragraph text. -/
theorem c2_chunk_length_bounds_witness :
    (∀ c ∈ PDFParser.chunk_text 10 1 3 ("abc def").toList, 3 ≤ c.length) ∧
      (∀ c ∈ PDFParser.chunk_text 10 1 3 ("abc def").toList,
        c.length < 10 + 3) ∧
      (∀ c ∈ chunk_text 10 1 ("abc def").toList,
        MIN_CHUNK_SIZE ≤ c.length) ∧
      (chunk_text 10 1 ("abc def").toList).length ≤ 1 := by
  have h := c2_chunk_length_bounds 10 1 3 (by decide) (by decide)
    (("abc def").toList)
  exact ⟨h.1, h.2.1 (by decide), h.2.2.1, h.2.2.2⟩

/-- C2 counterexample: with `O = 1 < M = 3 < S = 5` and the input
`"aaaaaaaaaa\n\nbb"`, `PDFParser._chunk_text` emits `" aaaaaaaaaa"`
followed by `"a bb"`: the first chunk is not the last and has length
11 ≥ S + M = 8, so the claimed interval `[M, S + M)` fails. -/
theorem c2_counterexample :
    (1 < 3 ∧ 3 < 5) ∧
      PDFParser.chunk_text 5 1 3 ("aaaaaaaaaa\n\nbb").toList =
        [(" aaaaaaaaaa").toList, ("a bb").toList] ∧
      ¬ ((" aaaaaaaaaa").toList.length < 5 + 3) :=
  ⟨by decide, by rfl, by decide⟩

/-- The safety level written into `PlantParser._parse_plant`'s result
for a given rating lookup. -/
theorem plant_parse_safety (item : JRecord) (src : Str) (r : Int)
    (e : PlantParser.PlantEntry)
    (hr : jGet item ("edibility_rating").toList = some (.num r))
    (hpe : PlantParser.parse_plant item src = some e) :
    e.safety_level = PlantParser.safetyForRating r ∧
      e.safety_notes = PlantParser.PLANT_SAFETY_WARNING := by
  rw [PlantParser.parse_plant] at hpe
  rw [hr] at hpe
  simp only [toIntOpt] at hpe
  split at hpe
  · exact absurd hpe (by simp)
  · have he := Option.some.inj hpe
    rw [← he]
    exact ⟨rfl, rfl⟩

/-- Every entry `PlantParser._parse_plant` produces carries the fixed
disclaimer, and its safety level is the rating-table lookup applied to
the coerced `edibility_rating` field (danger when the field is missing
or the coercion fails). -/
theorem plant_parse_fields (item : JRecord) (src : Str)
    (e : PlantParser.PlantEntry)
    (hpe : PlantParser.parse_plant item src = some e) :
    e.safety_notes = PlantParser.PLANT_SAFETY_WARNING ∧
      e.safety_level =
        (match (match jGet item ("edibility_rating").toList with
                | some v => toIntOpt v
                | none => none) with
         | some r => PlantParser.safetyForRating r
         | none => ("danger").toList) := by
  rw [PlantParser.parse_plant] at hpe
  split at hpe
  · exact absurd hpe (by simp)
  · have he := Option.some.inj hpe
    rw [← he]
    exact ⟨rfl, rfl⟩

/-- The safety level and notes written by `parse_json_item` for the
plants category. -/
theorem build_plant_safety (item : JRecord) (src : Str) (e : Entry)
    (hmem : e ∈ parse_json_item item ("plants").toList src) :
    e.safety_level = ("danger").toList ∧
      e.safety_notes = some BUILD_PLANT_WARNING := by
  simp only [parse_json_item] at hmem
  split at hmem
  · exact absurd hmem (by simp)
  · rw [List.mem_singleton.mp hmem]
    exact ⟨by simp, by simp⟩

set_option maxRecDepth 10000 in
/-- C4 (amended): `PlantParser._parse_plant` derives the safety level
of a rated plant from the fixed table 5→caution, 4→caution, 3→warning,
2→danger, 1→lethal, with 0, any other rating and a missing rating
mapping to danger, and always attaches the fixed non-empty
SAFETY WARNING disclaimer; the build's own JSON path
(`parse_json_item`, the code `build_index.py` actually runs) ignores
the rating and assigns "danger" to every plant record together with
its own fixed warning phrase. -/
theorem c4_plant_safety_table (item : JRecord) (src : Str) :
    (PlantParser.safetyForRating 5 = ("caution").toList ∧
      PlantParser.safetyForRating 4 = ("caution").toList ∧
      PlantParser.safetyForRating 3 = ("warning").toList ∧
      PlantParser.safetyForRating 2 = ("danger").toList ∧
      PlantParser.safetyForRating 1 = ("lethal").toList ∧
      PlantParser.safetyForRating 0 = ("danger").toList) ∧
    (∃ pre suf, PlantParser.PLANT_SAFETY_WARNING =
      pre ++ ("SAFETY WARNING").toList ++ suf) ∧
    PlantParser.PLANT_SAFETY_WARNING ≠ [] ∧
    (∀ r : Int, ∀ e : PlantParser.PlantEntry,
      jGet item ("edibility_rating").toList = some (.num r) →
      PlantParser.parse_plant item src = some e →
      e.safety_level = PlantParser.safetyForRating r ∧
        e.safety_notes = PlantParser.PLANT_SAFETY_WARNING) ∧
    (∀ e : PlantParser.PlantEntry,
      PlantParser.parse_plant item src = some e →
      e.safety_notes = PlantParser.PLANT_SAFETY_WARNING) ∧
    (∀ e : PlantParser.PlantEntry,
      jGet item ("edibility_rating").toList = none →
      PlantParser.parse_plant item src = some e →
      e.safety_level = ("danger").toList) ∧
    (∀ v : JValue, ∀ e : PlantParser.PlantEntry,
      jGet item ("edibility_rating").toList = some v → toIntOpt v = none →
      PlantParser.parse_plant item src = some e →
      e.safety_level = ("danger").toList) ∧
    (∀ e : Entry, e ∈ parse_json_item item ("plants").toList src →
      e.safety_level = ("danger").toList ∧
        e.safety_notes = some BUILD_PLANT_WARNING) := by
  refine ⟨by decide, ?_, by decide, ?_, ?_, ?_, ?_, ?_⟩
  · exact ⟨PlantParser.PLANT_SAFETY_WARNING.take 4,
      PlantParser.PLANT_SAFETY_WARNING.drop 18, by decide⟩
  · intro r e hr hpe
    exact plant_parse_safety item src r e hr hpe
  · intro e hpe
    exact (plant_parse_fields item src e hpe).1
  · intro e hr hpe
    have h2 := (plant_parse_fields item src e hpe).2
    rw [hr] at h2
    exact h2
  · intro v e hv hnone hpe
    have h2 := (plant_parse_fields item src e hpe).2
    simp only [hv, hnone] at h2
    exact h2
  · intro e hmem
    exact build_plant_safety item src e hmem

set_option maxRecDepth 10000 in
/-- C4 witness: the table and both parsers' behaviour instantiated at
the concrete lethal plant record, and the missing-rating policy at the
concrete unrated plant record. -/
theorem c4_plant_safety_table_witness :
    jGet exPlantRecord (("edibility_rating").toList) = some (.num 1) ∧
      (∃ e, PlantParser.parse_plant exPlantRecord
          (("plants.json").toList) = some e ∧
        e.safety_level = PlantParser.safetyForRating 1 ∧
        e.safety_notes = PlantParser.PLANT_SAFETY_WARNING) ∧
      jGet exPlantRecordNoRating (("edibility_rating").toList) = none ∧
      (∃ e, PlantParser.parse_plant exPlantRecordNoRating
          (("plants.json").toList) = some e ∧
        e.safety_level = ("danger").toList ∧
        e.safety_notes = PlantParser.PLANT_SAFETY_WARNING) ∧
      (∃ e, e ∈ parse_json_item exPlantRecord (("plants").toList)
          (("plants.json").toList) ∧
        e.safety_level = ("danger").toList ∧
        e.safety_notes = some BUILD_PLANT_WARNING) := by
  have h := c4_plant_safety_table exPlantRecord (("plants.json").toList)
  have h0 := c4_plant_safety_table exPlantRecordNoRating
    (("plants.json").toList)
  refine ⟨by rfl, ?_, by rfl, ?_, ?_⟩
  · obtain ⟨e, he⟩ : ∃ e, PlantParser.parse_plant exPlantRecord
        (("plants.json").toList) = some e := ⟨_, rfl⟩
    exact ⟨e, he, h.2.2.2.1 1 e (by rfl) he⟩
  · obtain ⟨e, he⟩ : ∃ e, PlantParser.parse_plant exPlantRecordNoRating
        (("plants.json").toList) = some e := ⟨_, rfl⟩
    exact ⟨e, he, h0.2.2.2.2.2.1 e (by rfl) he, h0.2.2.2.2.1 e he⟩
  · have hmem : ∃ e, e ∈ parse_json_item exPlantRecord
        (("plants").toList) (("plants.json").toList) :=
      ⟨_, List.mem_cons_self _ _⟩
    obtain ⟨e, he⟩ := hmem
    exact ⟨e, he, h.2.2.2.2.2.2.2 e he⟩

set_option maxRecDepth 10000 in
/-- C4 counterexample: the lethal-rated plant record run through the
build's `parse_json_item` yields one Entry with safety level "danger",
while `PlantParser._parse_plant` (never called by the build) would
yield "lethal": the end-to-end claim fails on the build. -/
theorem c4_counterexample :
    (parse_json_item exPlantRecord (("plants").toList)
        (("plants.json").toList)).map Entry.safety_level =
      [("danger").toList] ∧
      (PlantParser.parse_plant exPlantRecord
          (("plants.json").toList)).map
        PlantParser.PlantEntry.safety_level = some (("lethal").toList) ∧
      ¬ (("danger").toList = ("lethal").toList) :=
  ⟨rfl, rfl, by decide⟩

/-!  Dropping of records with short content. -/

theorem parse_json_item_short (item : JRecord) (cat src : Str)
    (h : (buildItemContent item).length < MIN_CHUNK_SIZE) :
    parse_json_item item cat src = [] := by
  simp only [parse_json_item]
  rw [if_pos h]

theorem json_parse_item_short (cfg : JSONParser.Config) (item : JRecord)
    (src : Str)
    (h : (JSONParser.itemContent cfg item).length < cfg.min_content_length) :
    JSONParser.parse_item cfg item src = none := by
  simp only [JSONParser.parse_item]
  rw [if_pos h]

theorem json_contentParts_nil (cfg : JSONParser.Config) (item : JRecord)
    (h : ∀ kv ∈ item, scalarOrShort kv.2 = true) :
    JSONParser.contentParts cfg item = [] := by
  rw [JSONParser.contentParts, List.filterMap_eq_nil_iff]
  intro kv hkv
  by_cases ht : kv.1 ∈ cfg.title_fields
  · rw [if_pos ht]
  · rw [if_neg ht]
    have hsc := h kv hkv
    cases hv : kv.2 with
    | str s =>
      rw [hv] at hsc
      simp only [scalarOrShort, decide_eq_true_eq] at hsc
      have hns : ¬ 20 < s.length := by omega
      simp [hns]
    | num n => rfl
    | bl b => rfl
    | listStr xs =>
      rw [hv] at hsc
      simp [scalarOrShort] at hsc

/-- C6 (amended): a JSON record whose assembled content is below the
minimum content length yields zero entries, in both
`parse_json_item` and `JSONParser._parse_item`; a record none of whose
values exceeds the content-inclusion threshold (strings over 20
characters or string lists) assembles no content at all and is always
dropped by `JSONParser._parse_item`.  A record whose only string field
is under the minimum but over the inclusion threshold can still yield
an entry once the key label is prepended (see the counterexample). -/
theorem c6_short_content_dropped (cfg : JSONParser.Config) (item : JRecord)
    (cat src : Str) :
    ((buildItemContent item).length < MIN_CHUNK_SIZE →
      parse_json_item item cat src = []) ∧
      ((JSONParser.itemContent cfg item).length < cfg.min_content_length →
        JSONParser.parse_item cfg item src = none) ∧
      (0 < cfg.min_content_length →
        (∀ kv ∈ item, scalarOrShort kv.2 = true) →
        JSONParser.parse_item cfg item src = none) := by
  refine ⟨parse_json_item_short item cat src,
    json_parse_item_short cfg item src, ?_⟩
  intro hmin hall
  apply json_parse_item_short
  rw [JSONParser.itemContent, json_contentParts_nil cfg item hall]
  simpa [joinBy] using hmin

/-- C6 witness: both drop paths instantiated at a record with a single
five-character string field. -/
theorem c6_short_content_dropped_witness :
    parse_json_item exShortRecord (("survival").toList)
        (("f.json").toList) = [] ∧
      JSONParser.parse_item JSONParser.defaultConfig exShortRecord
        (("f.json").toList) = none ∧
      JSONParser.parse_item JSONParser.defaultConfig exShortRecord
        (("f.json").toList) = none := by
  have h := c6_short_content_dropped JSONParser.defaultConfig exShortRecord
    (("survival").toList) (("f.json").toList)
  exact ⟨h.1 (by decide), h.2.1 (by decide), h.2.2 (by decide) (by decide)⟩

set_option maxRecDepth 10000 in
/-- C6 counterexample: a record whose only string fields are 1 and 45
characters long — both under the default minimum content length of 50 —
still yields an entry from `JSONParser._parse_item`, because the
45-character description is labelled `**Description**: ` and the block
reaches 62 characters. -/
theorem c6_counterexample :
    (JSONParser.parse_item JSONParser.defaultConfig exJsonRecord
        (("f.json").toList)).isSome = true ∧
      exJsonRecord.all (fun kv =>
        match kv.2 with
        | .str s => decide
            (s.length < JSONParser.defaultConfig.min_content_length)
        | _ => true) = true :=
  ⟨rfl, by decide⟩

/-!  The manifest record. -/

/-- C8 (amended): for a finished build the manifest's `total_entries`
equals a fresh `SELECT COUNT(*) FROM entries`, and for each persisted
artifact the manifest's `files` entry records the file's byte size
under `size_bytes` and its whole-file SHA-256 digest under the key
`sha256` — not `content_hash`, which does not exist — so recomputing
the digest of the artifact bytes reproduces the recorded value. -/
theorem c8_manifest_roundtrip (sha256 : List Nat → Str)
    (version sourceHash model ts : Str) (tbl : EntriesTable)
    (dbBytes vecBytes : List Nat) :
    mGet (generate_manifest sha256 version sourceHash model ts tbl
        dbBytes vecBytes) (("total_entries").toList) =
      some (.n (countEntries tbl)) ∧
      mGet (generate_manifest sha256 version sourceHash model ts tbl
        dbBytes vecBytes) (("files").toList) =
      some (.kv
        [(("knowledge.db").toList, .kv
          [(("size_bytes").toList, .n dbBytes.length),
           (("sha256").toList, .s (sha256 dbBytes))]),
         (("vectors.idx").toList, .kv
          [(("size_bytes").toList, .n vecBytes.length),
           (("sha256").toList, .s (sha256 vecBytes))])]) ∧
      mGet [(("size_bytes").toList, MVal.n dbBytes.length),
        (("sha256").toList, MVal.s (sha256 dbBytes))]
        (("sha256").toList) = some (.s (sha256 dbBytes)) :=
  ⟨rfl, rfl, rfl⟩

/-- C8 counterexample: the per-artifact record of a generated manifest
carries the keys `size_bytes` and `sha256`; looking up the claimed
field name `content_hash` finds nothing. -/
theorem c8_counterexample :
    mGet (generate_manifest exHash (("1.0.0").toList) (("s").toList)
        (("m").toList) (("t").toList) [exEntry] [7] [8, 9])
      (("files").toList) =
      some (.kv
        [(("knowledge.db").toList, .kv
          [(("size_bytes").toList, .n 1),
           (("sha256").toList, .s ("1").toList)]),
         (("vectors.idx").toList, .kv
          [(("size_bytes").toList, .n 2),
           (("sha256").toList, .s ("2").toList)])]) ∧
      mGet [(("size_bytes").toList, MVal.n 1),
        (("sha256").toList, MVal.s ("1").toList)]
        (("content_hash").toList) = none :=
  ⟨rfl, rfl⟩

/-!  The verifier. -/

theorem searchStep_snd (db : DBFile) (search : Str → List Nat)
    (acc : Bool × List QueryOutcome) (q : Str × Str) :
    ∃ o, (searchStep db search acc q).2 = acc.2 ++ [o] := by
  cases hs : search q.1 with
  | nil => exact ⟨QueryOutcome.noResults q.1, by simp only [searchStep, hs]⟩
  | cons l ls =>
    cases hl : lookupCategory db l with
    | none =>
      exact ⟨QueryOutcome.missingRow q.1 l, by simp only [searchStep, hs, hl]⟩
    | some cat =>
      by_cases hc : cat = q.2
      · exact ⟨QueryOutcome.pass q.1 cat,
          by simp only [searchStep, hs, hl, if_pos hc]⟩
      · exact ⟨QueryOutcome.warn q.1 cat q.2,
          by simp only [searchStep, hs, hl, if_neg hc]⟩

theorem searchFold_snd (db : DBFile) (search : Str → List Nat)
    (qs : List (Str × Str)) :
    ∀ acc, ∃ rest, (qs.foldl (searchStep db search) acc).2 =
      acc.2 ++ rest := by
  induction qs with
  | nil => intro acc; exact ⟨[], by simp⟩
  | cons q rest ih =>
    intro acc
    rw [List.foldl_cons]
    obtain ⟨o, ho⟩ := searchStep_snd db search acc q
    obtain ⟨r2, hr2⟩ := ih (searchStep db search acc q)
    exact ⟨[o] ++ r2, by rw [hr2, ho, List.append_assoc]⟩

theorem searchStep_fst_false (db : DBFile) (search : Str → List Nat)
    (acc : Bool × List QueryOutcome) (q : Str × Str) (h : acc.1 = false) :
    (searchStep db search acc q).1 = false := by
  cases hs : search q.1 with
  | nil => simp only [searchStep, hs]
  | cons l ls =>
    cases hl : lookupCategory db l with
    | none => simp only [searchStep, hs, hl]
    | some cat =>
      by_cases hc : cat = q.2
      · simp only [searchStep, hs, hl, if_pos hc]
        exact h
      · simp only [searchStep, hs, hl, if_neg hc]
        exact h

theorem searchFold_fst_false (db : DBFile) (search : Str → List Nat)
    (qs : List (Str × Str)) :
    ∀ acc, acc.1 = false →
      (qs.foldl (searchStep db search) acc).1 = false := by
  induction qs with
  | nil => intro acc h; exact h
  | cons q rest ih =>
    intro acc h
    rw [List.foldl_cons]
    exact ih _ (searchStep_fst_false db search acc q h)

theorem searchStep_fst_good (db : DBFile) (search : Str → List Nat)
    (acc : Bool × List QueryOutcome) (q : Str × Str) (l : Nat) (ls : List Nat)
    (c : Str) (hs : search q.1 = l :: ls) (hl : lookupCategory db l = some c) :
    (searchStep db search acc q).1 = acc.1 := by
  simp only [searchStep, hs, hl]
  by_cases hc : c = q.2
  · simp only [if_pos hc]
  · simp only [if_neg hc]

theorem searchFold_fst_good (db : DBFile) (search : Str → List Nat)
    (qs : List (Str × Str))
    (hq : ∀ q ∈ qs, ∃ l ls c, search q.1 = l :: ls ∧
      lookupCategory db l = some c) :
    ∀ acc, (qs.foldl (searchStep db search) acc).1 = acc.1 := by
  induction qs with
  | nil => intro acc; rfl
  | cons q rest ih =>
    intro acc
    rw [List.foldl_cons]
    obtain ⟨l, ls, c, hs, hl⟩ := hq q (List.mem_cons_self q rest)
    rw [ih (fun p hp => hq p (List.mem_cons_of_mem q hp))]
    exact searchStep_fst_good db search acc q l ls c hs hl

theorem searchFold_fst_bad (db : DBFile) (search : Str → List Nat)
    (qs : List (Str × Str)) (q : Str × Str) (hq : q ∈ qs)
    (hbad : search q.1 = [] ∨ ∃ l ls, search q.1 = l :: ls ∧
      lookupCategory db l = none) :
    ∀ acc, (qs.foldl (searchStep db search) acc).1 = false := by
  induction qs with
  | nil => exact absurd hq (List.not_mem_nil q)
  | cons p rest ih =>
    intro acc
    rw [List.foldl_cons]
    rcases List.mem_cons.mp hq with heq | hmem
    · subst heq
      apply searchFold_fst_false
      rcases hbad with h0 | ⟨l, ls, hs, hl⟩
      · simp only [searchStep, h0]
      · simp only [searchStep, hs, hl]
    · exact ih hmem _

theorem searchFold_warn_mem (db : DBFile) (search : Str → List Nat)
    (qs : List (Str × Str)) (q : Str × Str) (hq : q ∈ qs) (l : Nat)
    (ls : List Nat) (c : Str) (hs : search q.1 = l :: ls)
    (hl : lookupCategory db l = some c) (hc : ¬ c = q.2) :
    ∀ acc, QueryOutcome.warn q.1 c q.2 ∈
      (qs.foldl (searchStep db search) acc).2 := by
  induction qs with
  | nil => exact absurd hq (List.not_mem_nil q)
  | cons p rest ih =>
    intro acc
    rw [List.foldl_cons]
    rcases List.mem_cons.mp hq with heq | hmem
    · subst heq
      obtain ⟨r2, hr2⟩ := searchFold_snd db search rest
        (searchStep db search acc q)
      rw [hr2]
      have hstep : (searchStep db search acc q).2 =
          acc.2 ++ [QueryOutcome.warn q.1 c q.2] := by
        simp only [searchStep, hs, hl, if_neg hc]
      rw [hstep]
      simp
    · exact ih hmem _

/-- C9 (amended): category mismatches on sample queries are reported as
warnings and never flip the overall verification result, while the hard
structural failures the verifier actually checks — integrity failure,
missing table, empty vector index, missing manifest or required field,
entry-count mismatch, empty search result, or a returned label with no
row — make the overall result failed and the exit code non-zero.  (The
verifier never recomputes artifact hashes, so a hash mismatch is not
among the detected failures.) -/
theorem c9_warnings_vs_failures (db : DBFile) (idx : Option (HnswIndex α))
    (man : Option (List (Str × MVal))) (search : Str → List Nat) :
    ((∀ q ∈ TEST_QUERIES, ∃ l ls c, search q.1 = l :: ls ∧
        lookupCategory db l = some c) →
      verify_database db = true → verify_vector_index idx = true →
      verify_manifest man db = true →
      verify_index db idx man search = true ∧
        verifyExitCode db idx man search = 0) ∧
      (∀ q ∈ TEST_QUERIES, ∀ l ls c, search q.1 = l :: ls →
        lookupCategory db l = some c → ¬ c = q.2 →
        QueryOutcome.warn q.1 c q.2 ∈ (verify_search db search).2) ∧
      ((db.integrityOk = false ∨ db.hasEntriesTable = false ∨
          db.hasFtsTable = false ∨ db.rows.length = 0) →
        verify_index db idx man search = false ∧
          verifyExitCode db idx man search = 1) ∧
      ((idx = none ∨ ∃ i, idx = some i ∧ i.count = 0) →
        verify_index db idx man search = false ∧
          verifyExitCode db idx man search = 1) ∧
      ((man = none ∨ ∃ m k, man = some m ∧
          mGet m (("total_entries").toList) = some (.n k) ∧
          ¬ k = db.rows.length) →
        verify_index db idx man search = false ∧
          verifyExitCode db idx man search = 1) ∧
      ((∃ m f, man = some m ∧ f ∈ requiredManifestFields ∧
          mGet m f = none) →
        verify_index db idx man search = false ∧
          verifyExitCode db idx man search = 1) ∧
      ((∃ q, q ∈ TEST_QUERIES ∧ (search q.1 = [] ∨ ∃ l ls,
          search q.1 = l :: ls ∧ lookupCategory db l = none)) →
        verify_index db idx man search = false ∧
          verifyExitCode db idx man search = 1) := by
  refine ⟨?_, ?_, ?_, ?_, ?_, ?_, ?_⟩
  · intro hgood h1 h2 h3
    have hs : (verify_search db search).1 = true := by
      rw [verify_search, searchFold_fst_good db search TEST_QUERIES hgood]
    have hvi : verify_index db idx man search = true := by
      simp [verify_index, h1, h2, h3, hs]
    exact ⟨hvi, by simp [verifyExitCode, hvi]⟩
  · intro q hq l ls c hs hl hc
    exact searchFold_warn_mem db search TEST_QUERIES q hq l ls c hs hl hc _
  · intro hbad
    have hdb : verify_database db = false := by
      rcases hbad with h | h | h | h <;> simp [verify_database, h]
    have hvi : verify_index db idx man search = false := by
      simp [verify_index, hdb]
    exact ⟨hvi, by simp [verifyExitCode, hvi]⟩
  · intro hbad
    have hv : verify_vector_index idx = false := by
      rcases hbad with h | ⟨i, hi, hc⟩
      · rw [h]; rfl
      · rw [hi]
        simp [verify_vector_index, hc]
    have hvi : verify_index db idx man search = false := by
      simp [verify_index, hv]
    exact ⟨hvi, by simp [verifyExitCode, hvi]⟩
  · intro hbad
    have hm : verify_manifest man db = false := by
      rcases hbad with h | ⟨m, k, hm, hk, hkne⟩
      · rw [h]; rfl
      · rw [hm]
        simp only [verify_manifest, hk]
        simp [beq_eq_false_iff_ne.mpr hkne]
    have hvi : verify_index db idx man search = false := by
      simp [verify_index, hm]
    exact ⟨hvi, by simp [verifyExitCode, hvi]⟩
  · intro hbad
    obtain ⟨m, f, hm, hf, hnone⟩ := hbad
    have hmf : verify_manifest man db = false := by
      rw [hm]
      have hall : requiredManifestFields.all
          (fun f => (mGet m f).isSome) = false := by
        rw [List.all_eq_false]
        exact ⟨f, hf, by simp [hnone]⟩
      simp [verify_manifest, hall]
    have hvi : verify_index db idx man search = false := by
      simp [verify_index, hmf]
    exact ⟨hvi, by simp [verifyExitCode, hvi]⟩
  · intro hbad
    obtain ⟨q, hq, hcase⟩ := hbad
    have hs : (verify_search db search).1 = false := by
      rw [verify_search]
      exact searchFold_fst_bad db search TEST_QUERIES q hq hcase _
    have hvi : verify_index db idx man search = false := by
      simp [verify_index, hs]
    exact ⟨hvi, by simp [verifyExitCode, hvi]⟩

set_option maxRecDepth 10000 in
/-- C9 witness: a structurally sound world passes with exit code 0
(although four of the five sample queries land in a mismatched
category, reported as warnings); a world whose entries table is
missing fails with exit code 1; and a world whose manifest lacks the
required `version` field fails with exit code 1. -/
theorem c9_warnings_vs_failures_witness :
    (verify_index exDb (some exIdx) (some exMan) exSearch = true ∧
      verifyExitCode exDb (some exIdx) (some exMan) exSearch = 0) ∧
      (verify_index (⟨true, false, true, []⟩ : DBFile) (some exIdx)
          (some exMan) exSearch = false ∧
        verifyExitCode (⟨true, false, true, []⟩ : DBFile) (some exIdx)
          (some exMan) exSearch = 1) ∧
      (verify_index exDb (some exIdx)
          (some [(("total_entries").toList, MVal.n 1)]) exSearch = false ∧
        verifyExitCode exDb (some exIdx)
          (some [(("total_entries").toList, MVal.n 1)]) exSearch = 1) := by
  have h1 := c9_warnings_vs_failures exDb (some exIdx) (some exMan) exSearch
  have h2 := c9_warnings_vs_failures (⟨true, false, true, []⟩ : DBFile)
    (some exIdx) (some exMan) exSearch
  have h3 := c9_warnings_vs_failures exDb (some exIdx)
    (some [(("total_entries").toList, MVal.n 1)]) exSearch
  refine ⟨h1.1 ?_ (by rfl) (by rfl) (by rfl),
    h2.2.2.1 (Or.inr (Or.inl rfl)),
    h3.2.2.2.2.2.1 ⟨[(("total_entries").toList, MVal.n 1)],
      ("version").toList, rfl, by decide, rfl⟩⟩
  intro q hq
  exact ⟨1, [], ("survival").toList, rfl, rfl⟩

set_option maxRecDepth 10000 in
/-- C9 counterexample: a world whose manifest records the digest
"deadbeef" for knowledge.db while the artifact's freshly recomputed
digest is "2" still passes verification with exit code 0 — the
verifier never recomputes file hashes, so a hash mismatch does not
make the result failed. -/
theorem c9_counterexample :
    (∃ filesRec dbRec,
      mGet exMan (("files").toList) = some (.kv filesRec) ∧
        mGet filesRec (("knowledge.db").toList) = some (.kv dbRec) ∧
        mGet dbRec (("sha256").toList) = some (.s ("deadbeef").toList)) ∧
      exHash [7, 7] = ("2").toList ∧
      ¬ (("deadbeef").toList = ("2").toList) ∧
      verify_index exDb (some exIdx) (some exMan) exSearch = true ∧
      verifyExitCode exDb (some exIdx) (some exMan) exSearch = 0 :=
  ⟨⟨_, _, rfl, rfl, rfl⟩, rfl, by decide, by rfl, by rfl⟩

end Waycore
